import Mathlib

set_option maxRecDepth 4000

/-!
Verification of the flame-graph profiling pipeline of the umd repository.

Embedded code:
* pkg/flamegraph/collapse.go — CollapsePerf, CollapseDtrace, isCountLine,
  writeCollapsed (stack folding into the collapsed-stacks text format);
* the flamegraph SVG renderer — GenerateSVG, renderFrame, frameColor,
  getMaxDepth (tree building and layout).

Modelling conventions:
* a text stream is a list of scanner lines (bufio.Scanner splits on newlines);
  an io.Writer receiving Fprintf calls is modelled as the concatenation of the
  written strings (for writeCollapsed: the list of written lines);
* Go string operations act on bytes; here they act on Char lists.  For the
  ASCII data of profiler output the two agree (and UTF-8 byte order agrees
  with code-point order for valid UTF-8, so lexicographic sorting agrees too);
* Go map[string]int is an association list in insertion order together with
  the invariant that keys are unique; map iteration order, which Go leaves
  unspecified, is dealt with explicitly where the code iterates maps;
* Go int is Int (arbitrary precision; the counts in scope are far below the
  int64 overflow boundary), sample counts from dtrace are Nat.
-/

namespace Umd

/-- Whitespace test matching the characters unicode.IsSpace recognises in the
ASCII range (space, tab, newline, vertical tab, form feed, carriage return). -/
def isWS (c : Char) : Bool :=
  c.toNat = 32 || c.toNat = 9 || c.toNat = 10 || c.toNat = 13 || c.toNat = 11 || c.toNat = 12

/-- Model of strings.TrimSpace. -/
def goTrim (s : String) : String :=
  String.mk (((s.data.dropWhile isWS).reverse.dropWhile isWS).reverse)

/-- Accumulator loop for goFields: split at whitespace runs, dropping empties. -/
def fieldsAux : List Char → List Char → List String
  | [], acc => if acc = [] then [] else [String.mk acc.reverse]
  | c :: cs, acc =>
      if isWS c then
        (if acc = [] then fieldsAux cs [] else String.mk acc.reverse :: fieldsAux cs [])
      else fieldsAux cs (c :: acc)

/-- Model of strings.Fields. -/
def goFields (s : String) : List String := fieldsAux s.data []

/-- Split a character list at every occurrence of a separator character
(empty pieces kept), as strings.Split does for a one-character separator. -/
def splitChar (sep : Char) : List Char → List Char → List String
  | [], acc => [String.mk acc.reverse]
  | c :: cs, acc =>
      if c = sep then String.mk acc.reverse :: splitChar sep cs []
      else splitChar sep cs (c :: acc)

/-- Model of strings.Split(s, ";"): the frame list of a folded-stack key. -/
def splitSemi (s : String) : List String := splitChar ';' s.data []

/-- Loop for splitN2Space: break at the first space, if any. -/
def breakSpace : List Char → List Char → Option (String × String)
  | [], _ => none
  | c :: cs, acc =>
      if c = ' ' then some (String.mk acc.reverse, String.mk cs)
      else breakSpace cs (c :: acc)

/-- Model of strings.SplitN(line, " ", 2): some (head, rest) when the line
contains a space, none otherwise (the len(parts) != 2 case). -/
def splitN2Space (line : String) : Option (String × String) := breakSpace line.data []

/-- Model of strings.Join(xs, ";"). -/
def joinSemi : List String → String
  | [] => ""
  | [x] => x
  | x :: xs => x ++ ";" ++ joinSemi xs

/-- Index of the first character satisfying a test, as strings.Index for a
one-character pattern. -/
def idxOfChar (t : Char → Bool) : List Char → Option Nat
  | [] => none
  | c :: cs => if t c then some 0 else (idxOfChar t cs).map (· + 1)

/-- Strip a trailing +offset: both collapsers truncate a frame at the first
plus sign when its index is positive. -/
def stripOffset (s : String) : String :=
  match idxOfChar (fun c => c = '+') s.data with
  | some i => if i > 0 then String.mk (s.data.take i) else s
  | none => s

/-- Drop a leading module qualifier: CollapseDtrace keeps only what follows
the first backtick character (code 96) when one occurs at index >= 0. -/
def dropModule (s : String) : String :=
  match idxOfChar (fun c => c.toNat = 96) s.data with
  | some i => String.mk (s.data.drop (i + 1))
  | none => s

/-- Decimal value of a digit list. -/
def digitsVal (cs : List Char) : Nat := cs.foldl (fun a c => 10 * a + (c.toNat - 48)) 0

/-- Model of isCountLine: nonempty and all decimal digits. -/
def isCountLine (s : String) : Bool :=
  decide (s.data ≠ []) && s.data.all (fun c => 48 ≤ c.toNat && c.toNat ≤ 57)

/-- Digit prefix value, 0 when there is no digit (a failed fmt.Sscanf leaves
the scanned variable at its zero value). -/
def scanDigits (cs : List Char) : Int :=
  Int.ofNat (digitsVal (cs.takeWhile (fun c => 48 ≤ c.toNat && c.toNat ≤ 57)))

/-- Model of fmt.Sscanf(s, "%d", &n) with n initialised to 0: skip leading
whitespace, optional sign, then a digit run; 0 when scanning fails.  (Go
would reject a value overflowing int64; inputs in scope stay far below.) -/
def scanInt (s : String) : Int :=
  match s.data.dropWhile isWS with
  | [] => 0
  | c :: rest =>
      if c = '-' then - scanDigits rest
      else if c = '+' then scanDigits rest
      else scanDigits (c :: rest)

/-- Byte-lexicographic string order used by sort.Strings (on the code points;
identical to byte order for ASCII and for valid UTF-8). -/
def leChars : List Char → List Char → Bool
  | [], _ => true
  | _ :: _, [] => false
  | a :: as, b :: bs => if a = b then leChars as bs else decide (a.toNat < b.toNat)

/-- String comparison wrapper for leChars. -/
def strLe (a b : String) : Bool := leChars a.data b.data

/-- Insert into a key-sorted list (the insertion step of a stable sort by a
string key, as sort.Strings produces for distinct keys). -/
def insertBy (key : α → String) (a : α) : List α → List α
  | [] => [a]
  | b :: bs => if strLe (key a) (key b) then a :: b :: bs else b :: insertBy key a bs

/-- Stable insertion sort by a string key; models sort.Strings / sorting map
keys for deterministic output. -/
def sortBy (key : α → String) : List α → List α
  | [] => []
  | a :: as => insertBy key a (sortBy key as)

/-- Model of stacks[key] += count on a Go map: add to an existing entry or
append a new one (appending keeps keys unique). -/
def bumpStack : List (String × Nat) → String → Nat → List (String × Nat)
  | [], k, c => [(k, c)]
  | e :: m, k, c => if e.1 = k then (e.1, e.2 + c) :: m else e :: bumpStack m k c

/-- Map lookup with the Go zero-value default. -/
def lookupCount (m : List (String × Nat)) (k : String) : Nat :=
  match m.find? (fun e => e.1 == k) with
  | some e => e.2
  | none => 0

/-- The key set of the folded-stacks map, in insertion order. -/
def stackKeys (m : List (String × Nat)) : List String := m.map Prod.fst

/-- The (key, count) records of writeCollapsed in output order: keys sorted,
each looked up in the map. -/
def sortedEntries (m : List (String × Nat)) : List (String × Nat) :=
  (sortBy id (stackKeys m)).map (fun k => (k, lookupCount m k))

/-- Model of writeCollapsed: one "key count" line per sorted key. -/
def writeCollapsed (m : List (String × Nat)) : List String :=
  (sortedEntries m).map (fun e => e.1 ++ " " ++ toString e.2)

/-- Scanner state of both collapsers: the aggregation map and the frame list
of the record being read. -/
structure FoldSt where
  stackMap : List (String × Nat)
  current : List String

/-- End-of-record handling in CollapsePerf: reverse the leaf-first frames to
root-first, join with semicolons, count the stack once. -/
def flushPerf (st : FoldSt) : FoldSt :=
  if st.current = [] then st
  else ⟨bumpStack st.stackMap (joinSemi st.current.reverse) 1, []⟩

/-- Frame-line test of CollapsePerf: the raw line starts with a tab or with
two spaces. -/
def isFrameLine (line : String) : Bool :=
  (match line.data with | c :: _ => c = '\t' | [] => false) ||
  (match line.data with | a :: b :: _ => a = ' ' && b = ' ' | _ => false)

/-- One scanner iteration of CollapsePerf. -/
def perfStep (st : FoldSt) (line : String) : FoldSt :=
  let trimmed := goTrim line
  if trimmed = "" then flushPerf st
  else if isFrameLine line then
    match (goFields trimmed).get? 1 with
    | some fn => ⟨st.stackMap, st.current ++ [stripOffset fn]⟩
    | none => st
  else st

/-- Model of CollapsePerf: scan all lines, flush a pending stack at end of
input (the "no trailing newline" case), write the sorted folded output. -/
def collapsePerf (lines : List String) : List String :=
  writeCollapsed (flushPerf (lines.foldl perfStep ⟨[], []⟩)).stackMap

/-- One scanner iteration of CollapseDtrace. -/
def dtraceStep (st : FoldSt) (line : String) : FoldSt :=
  let trimmed := goTrim line
  if trimmed = "" then
    (if st.current = [] then st else ⟨bumpStack st.stackMap (joinSemi st.current) 1, []⟩)
  else if isCountLine trimmed then
    (if st.current = [] then st
     else ⟨bumpStack st.stackMap (joinSemi st.current) (digitsVal trimmed.data), []⟩)
  else
    ⟨st.stackMap, st.current ++ [stripOffset (dropModule trimmed)]⟩

/-- Model of CollapseDtrace.  Unlike CollapsePerf it has no end-of-input
flush: a pending stack not terminated by a blank or count line is dropped. -/
def collapseDtrace (lines : List String) : List String :=
  writeCollapsed (lines.foldl dtraceStep ⟨[], []⟩).stackMap

/-- The frame tree of GenerateSVG: name, value, children.  Go keys the
children by name in a map; here they are a list in insertion order, with
names unique by construction (a child is only ever created under a fresh
name), and every map-stored node carries its key as its name. -/
inductive Frame : Type where
  | mk (name : String) (value : Int) (children : List Frame)

/-- Frame name projection. -/
def Frame.name : Frame → String
  | .mk n _ _ => n

/-- Frame value projection. -/
def Frame.value : Frame → Int
  | .mk _ v _ => v

/-- Frame children projection. -/
def Frame.children : Frame → List Frame
  | .mk _ _ cs => cs

/-- Map lookup node.children[fname]: first child with the given name. -/
def findChild (cs : List Frame) (x : String) : Option Frame :=
  cs.find? (fun c => c.name == x)

/-- Map store node.children[fname] = child: replace the entry with that name,
or append a new one. -/
def setChild : List Frame → String → Frame → List Frame
  | [], _, nc => [nc]
  | c :: cs, x, nc => if c.name = x then nc :: cs else c :: setChild cs x nc

/-- The tree-walk loop of GenerateSVG for one record: for each frame name,
get or create the child, add the count to its value, and descend. -/
def addPath : Frame → List String → Int → Frame
  | t, [], _ => t
  | t, x :: rest, cnt =>
      let c0 := match findChild t.children x with
        | some c => c
        | none => Frame.mk x 0 []
      Frame.mk t.name t.value
        (setChild t.children x (addPath (Frame.mk x (c0.value + cnt) c0.children) rest cnt))

/-- One record applied to the tree: the walk over its frames followed by
root.value += count. -/
def applyRecord (t : Frame) (frames : List String) (cnt : Int) : Frame :=
  let r := addPath t frames cnt
  Frame.mk r.name (r.value + cnt) r.children

/-- Per-line parsing of GenerateSVG: SplitN(line, " ", 2) must give two
parts, the count is scanned with %d and coerced from 0 to 1. -/
def parseLine (line : String) : Option (String × Int) :=
  match splitN2Space line with
  | none => none
  | some sc =>
      let c0 := scanInt sc.2
      some (sc.1, if c0 = 0 then 1 else c0)

/-- The records of a collapsed-stacks input: frame list and clamped count of
every line that parses (lines without a space are skipped). -/
def parsedRecords (lines : List String) : List (List String × Int) :=
  lines.filterMap (fun l => (parseLine l).map (fun sc => (splitSemi sc.1, sc.2)))

/-- The totalSamples accumulator of GenerateSVG's scanner loop. -/
def totalSamplesOf (lines : List String) : Int :=
  ((parsedRecords lines).map Prod.snd).sum

/-- newFrame("root"). -/
def rootFrame : Frame := Frame.mk "root" 0 []

/-- The tree built by GenerateSVG's scanner loop.  (The Go loop interleaves
tree extension and totalSamples accumulation; the two effects are
independent, so they are modelled as separate folds over the same records.) -/
def buildRoot (lines : List String) : Frame :=
  (parsedRecords lines).foldl (fun t r => applyRecord t r.1 r.2) rootFrame

/-- The node reached from a frame by following a path of child names. -/
def findNode : Frame → List String → Option Frame
  | t, [] => some t
  | t, x :: p =>
      match findChild t.children x with
      | some c => findNode c p
      | none => none

/-- Sum of the values of a node's children. -/
def childrenValueSum (f : Frame) : Int := (f.children.map Frame.value).sum

/-- Boolean list-of-strings Pre-order test: does p occur as an initial
segment of l? -/
def pfx : List String → List String → Bool
  | [], _ => true
  | _ :: _, [] => false
  | a :: as, b :: bs => (a == b) && pfx as bs

/-- Total count of the records whose frame path starts with p. -/
def pathWeight (R : List (List String × Int)) (p : List String) : Int :=
  (R.map (fun r => if pfx p r.1 then r.2 else 0)).sum

/-- Total count of the records whose frame path is exactly p. -/
def endWeight (R : List (List String × Int)) (p : List String) : Int :=
  (R.map (fun r => if r.1 = p then r.2 else 0)).sum

/-- Model of frameColor: a pure function of depth and scheme; an unknown
scheme falls through to the hot palette. -/
def frameColor (depth : Nat) (scheme : String) : Nat × Nat × Nat :=
  if scheme = "cold" then (30, 50 + (depth * 30) % 150, 150 + (depth * 20) % 100)
  else if scheme = "mem" then (30, 190 + (depth * 15) % 60, 30)
  else (200 + (depth * 15) % 55, 50 + (depth * 40) % 150, 30)

mutual

/-- Model of getMaxDepth: the running-max loop over the children. -/
def getMaxDepth : Frame → Nat → Nat
  | .mk _ _ cs, depth => getMaxDepthList cs depth depth
  termination_by f _ => sizeOf f

/-- The loop body of getMaxDepth: remaining children, depth, running max. -/
def getMaxDepthList : List Frame → Nat → Nat → Nat
  | [], _, m => m
  | c :: cs, depth, m =>
      let d := getMaxDepth c (depth + 1)
      getMaxDepthList cs depth (if d > m then d else m)
  termination_by cs _ _ => sizeOf cs

end

/-- Escape of one character, as html.EscapeString rewrites it (the five
escaped characters are ampersand, apostrophe, less-than, greater-than and
double quote, code 34). -/
def escapeChar (c : Char) : String :=
  if c = '&' then "&amp;"
  else if c = '\'' then "&#39;"
  else if c = '<' then "&lt;"
  else if c = '>' then "&gt;"
  else if c.toNat = 34 then "&#34;"
  else String.mk [c]

/-- Model of html.EscapeString. -/
def escapeString (s : String) : String :=
  (s.data.map escapeChar).foldl (fun a b => a ++ b) ""

/-- Model of fmt.Sprintf("%.1f%%", float64(v)/float64(total)*100): the
percentage in tenths, rounded to the nearest tenth.  float64 evaluation and
formatting can differ in the last digit for adversarial values; no claim
depends on the digits, only on this being a pure function of v and total. -/
def pctString (v total : Int) : String :=
  let tenths := (v * 1000 * 2 + total) / (2 * total)
  toString (tenths / 10) ++ "." ++ toString (tenths % 10).natAbs ++ "%"

/-- Width of a child rectangle: Go computes
int(float64(width) * float64(child.value) / float64(f.value)) and clamps the
result to a minimum of 1.  The float64 truncation toward zero is Int.tdiv
(exact whenever the products stay inside float64's exact integer range, as
every realistic profile here does). -/
def childWidth (width cv fv : Int) : Int :=
  let w := Int.tdiv (width * cv) fv
  if w < 1 then 1 else w

mutual

/-- Model of renderFrame: emit the rectangle, the optional label, the
tooltip, then the children left to right in name-sorted order. -/
def renderFrame : Frame → Int → Int → Int → Int → Int → Int → Nat → String → String
  | Frame.mk nm v cs, x, baseY, width, frameHeight, fontSize, total, depth, scheme =>
    if width < 1 ∨ v = 0 then ""
    else
      let y := baseY - (depth : Int) * frameHeight
      let rgb := frameColor depth scheme
      let rectPart := "<g class=\"func\">\n<rect x=\"" ++ toString x ++ "\" y=\"" ++
        toString (y - frameHeight) ++ "\" width=\"" ++ toString width ++ "\" height=\"" ++
        toString (frameHeight - 1) ++ "\" fill=\"rgb(" ++ toString rgb.1 ++ "," ++
        toString rgb.2.1 ++ "," ++ toString rgb.2.2 ++ ")\" rx=\"1\"/>\n"
      let labelPart :=
        if width > 40 then
          let label := nm
          let maxChars := Int.tdiv (width - 4) 7
          let label :=
            if (label.length : Int) > maxChars then
              (if maxChars > 3 then String.mk (label.data.take (maxChars - 2).toNat) ++ ".."
               else "")
            else label
          if label ≠ "" then
            "<text x=\"" ++ toString (x + 2) ++ "\" y=\"" ++ toString (y - 4) ++
              "\" fill=\"black\">" ++ escapeString label ++ "</text>\n"
          else ""
        else ""
      let titlePart := "<title>" ++ escapeString nm ++ " (" ++ toString v ++ " samples, " ++
        pctString v total ++ ")</title>\n</g>\n"
      rectPart ++ labelPart ++ titlePart ++
        renderKids (sortBy id (cs.map Frame.name)) cs v x baseY width frameHeight fontSize
          total depth scheme
  termination_by f _ _ _ _ _ _ _ _ => (sizeOf f, 0)

/-- The child loop of renderFrame: the sorted child names, each looked up in
the children map; childX advances by each child's width.  (A name missing
from the map cannot occur — the names come from the map itself — so that
branch just skips; Go would dereference nil there.) -/
def renderKids : List String → List Frame → Int → Int → Int → Int → Int → Int → Int → Nat →
    String → String
  | [], _, _, _, _, _, _, _, _, _, _ => ""
  | n :: rest, cs, fv, childX, baseY, width, frameHeight, fontSize, total, depth, scheme =>
      match h : findChild cs n with
      | some c =>
          let cw := childWidth width c.value fv
          renderFrame c childX baseY cw frameHeight fontSize total (depth + 1) scheme ++
            renderKids rest cs fv (childX + cw) baseY width frameHeight fontSize total depth
              scheme
      | none => renderKids rest cs fv childX baseY width frameHeight fontSize total depth scheme
  termination_by ns cs _ _ _ _ _ _ _ _ _ => (sizeOf cs, ns.length)
  decreasing_by
    · exact Prod.Lex.left _ _ (List.sizeOf_lt_of_mem (List.mem_of_find?_eq_some h))
    · exact Prod.Lex.right _ (by simp)
    · exact Prod.Lex.right _ (by simp)

end

/-- Model of SVGOptions. -/
structure SVGOptions where
  Title : String
  Width : Int
  Height : Int
  ColorScheme : String

/-- Model of DefaultSVGOptions (Height left at its zero value). -/
def defaultSVGOptions : SVGOptions := ⟨"Flame Graph", 1200, 0, "hot"⟩

/-- The SVG header GenerateSVG writes: XML preamble, svg element, style
block, background, title line, sample-count line. -/
def svgHeader (width height fontSize : Int) (title : String) (total : Int) : String :=
  "<?xml version=\"1.0\" standalone=\"no\"?>\n<!DOCTYPE svg PUBLIC \"-//W3C//DTD SVG 1.1//EN\" \"http://www.w3.org/Graphics/SVG/1.1/DTD/svg1.1.dtd\">\n<svg version=\"1.1\" width=\"" ++
  toString width ++ "\" height=\"" ++ toString height ++
  "\" xmlns=\"http://www.w3.org/2000/svg\">\n<style>\n  .func:hover \x7b stroke:black; stroke-width:0.5; cursor:pointer; \x7d\n  text \x7b font-family: monospace; font-size: " ++
  toString fontSize ++ "px; \x7d\n</style>\n<rect x=\"0\" y=\"0\" width=\"" ++
  toString width ++ "\" height=\"" ++ toString height ++
  "\" fill=\"white\"/>\n<text x=\"" ++ toString (Int.tdiv width 2) ++
  "\" y=\"20\" text-anchor=\"middle\" style=\"font-size:16px; font-weight:bold;\">" ++
  escapeString title ++ "</text>\n<text x=\"" ++ toString (Int.tdiv width 2) ++
  "\" y=\"35\" text-anchor=\"middle\" style=\"font-size:12px; fill:#666;\">(" ++
  toString total ++ " samples)</text>\n"

/-- The image height GenerateSVG uses: the height computed from the maximum
tree depth, (maxDepth + 2) * frameHeight + headerHeight + 20 with
frameHeight 16 and headerHeight 40, unless a nonzero height was supplied. -/
def effHeight (t : Frame) (optHeight : Int) : Int :=
  if optHeight = 0 then ((getMaxDepth t 0 : Int) + 2) * 16 + 40 + 20 else optHeight

/-- The full SVG document for a tree at an explicit width and height:
header, frames rendered from margin 10 and baseline height - 20 into
width - 2 * 10 columns, closing tag. -/
def svgOutputAt (t : Frame) (total width height : Int) (title scheme : String) : String :=
  svgHeader width height 12 title total ++
  renderFrame t 10 (height - 20) (width - 2 * 10) 16 12 total 0 scheme ++
  "</svg>\n"

/-- The document GenerateSVG writes on success: width defaulted to 1200 when
unset, height from effHeight. -/
def svgOutput (t : Frame) (total : Int) (opts : SVGOptions) : String :=
  let width := if opts.Width = 0 then 1200 else opts.Width
  svgOutputAt t total width (effHeight t opts.Height) opts.Title opts.ColorScheme

/-- Model of GenerateSVG.  The scanner loop is parsedRecords / buildRoot /
totalSamplesOf; the zero-sample check precedes every write to the output
writer, so the error case produces no output at all, and the ok payload is
the complete byte stream written. -/
def generateSVG (lines : List String) (opts : SVGOptions) : Except String String :=
  if totalSamplesOf lines = 0 then Except.error "no samples found in collapsed stacks"
  else Except.ok (svgOutput (buildRoot lines) (totalSamplesOf lines) opts)

mutual

/-- Canonical form of a tree: children recursively canonicalised and put in
name-sorted order.  Two in-memory trees represent the same Go map structure
exactly when their canonical forms coincide. -/
def canon : Frame → Frame
  | .mk n v cs => Frame.mk n v (sortBy Frame.name (canonList cs))
  termination_by f => sizeOf f

/-- Pointwise canon over a child list. -/
def canonList : List Frame → List Frame
  | [] => []
  | c :: cs => canon c :: canonList cs
  termination_by cs => sizeOf cs

end

/-- Raw perf-format input assembled from blank-line-delimited record blocks. -/
def linesOfBlocks : List (List String) → List String
  | [] => []
  | b :: bs => b ++ [""] ++ linesOfBlocks bs

/-- The frames CollapsePerf extracts from the lines of one record block. -/
def blockFrames (b : List String) : List String :=
  b.filterMap (fun l =>
    if isFrameLine l then ((goFields (goTrim l)).get? 1).map stripOffset else none)

/-- The folded key of one perf record block, none when it yields no frames. -/
def blockKey (b : List String) : Option String :=
  if blockFrames b = [] then none else some (joinSemi (blockFrames b).reverse)

/-- Weighted aggregation of record keys into the stacks map. -/
def aggregate (ws : List (String × Nat)) : List (String × Nat) :=
  ws.foldl (fun m w => bumpStack m w.1 w.2) []

/-- Raw dtrace-format input assembled from records, each a run of frame
lines followed by its terminator line (blank or count). -/
def linesOfDtraceRecs : List (List String × String) → List String
  | [] => []
  | r :: rs => r.1 ++ [r.2] ++ linesOfDtraceRecs rs

/-- The folded key and weight of one dtrace record, none when frameless. -/
def dtraceKeyWeight (r : List String × String) : Option (String × Nat) :=
  match r.1 with
  | [] => none
  | _ => some (joinSemi (r.1.map (fun l => stripOffset (dropModule (goTrim l)))),
               if goTrim r.2 = "" then 1 else digitsVal (goTrim r.2).data)

/-- Well-formedness the Go name-keyed child maps guarantee: at every node of
the tree, the children carry pairwise distinct names. -/
def NodupNames (t : Frame) : Prop :=
  ∀ p nd, findNode t p = some nd → (nd.children.map Frame.name).Nodup

/-- The value of the node at a path, 0 when there is no such node. -/
def valueAt (t : Frame) (p : List String) : Int :=
  match findNode t p with
  | some nd => nd.value
  | none => 0

/-- Boolean duplicate-freedom test for a name list. -/
def nodupStr : List String → Bool
  | [] => true
  | x :: xs => !(xs.any (fun y => y == x)) && nodupStr xs

mutual

/-- Executable form of NodupNames: child names are duplicate-free at every
node of the tree. -/
def wfNames : Frame → Bool
  | .mk _ _ cs => nodupStr (cs.map Frame.name) && wfList cs
  termination_by f => sizeOf f

/-- wfNames over a child list. -/
def wfList : List Frame → Bool
  | [] => true
  | c :: cs => wfNames c && wfList cs
  termination_by cs => sizeOf cs

end

/-! Order theory for the byte-lexicographic string comparison and the
insertion sort that models sort.Strings. -/

theorem char_eq_of_toNat_eq {a b : Char} (h : a.toNat = b.toNat) : a = b := by
  rw [← Char.ofNat_toNat a, ← Char.ofNat_toNat b, h]

theorem leChars_refl (cs : List Char) : leChars cs cs = true := by
  induction cs with
  | nil => rfl
  | cons c cs ih => simp [leChars, ih]

theorem leChars_total (a b : List Char) : leChars a b = true ∨ leChars b a = true := by
  induction a generalizing b with
  | nil => exact Or.inl rfl
  | cons x xs ih =>
    cases b with
    | nil => exact Or.inr rfl
    | cons y ys =>
      by_cases hxy : x = y
      · subst hxy
        simpa [leChars] using ih ys
      · have hyx : y ≠ x := fun h => hxy h.symm
        rcases Nat.lt_or_ge x.toNat y.toNat with h | h
        · exact Or.inl (by simp [leChars, hxy, h])
        · have hlt : y.toNat < x.toNat := by
            rcases Nat.lt_or_ge y.toNat x.toNat with h2 | h2
            · exact h2
            · exact absurd (char_eq_of_toNat_eq (Nat.le_antisymm h h2)).symm hxy
          exact Or.inr (by simp [leChars, hyx, hlt])

theorem leChars_antisymm {a b : List Char} (h1 : leChars a b = true)
    (h2 : leChars b a = true) : a = b := by
  induction a generalizing b with
  | nil =>
    cases b with
    | nil => rfl
    | cons y ys => simp [leChars] at h2
  | cons x xs ih =>
    cases b with
    | nil => simp [leChars] at h1
    | cons y ys =>
      by_cases hxy : x = y
      · subst hxy
        simp only [leChars, if_pos rfl] at h1 h2
        exact congrArg (x :: ·) (ih h1 h2)
      · have hyx : y ≠ x := fun h => hxy h.symm
        simp only [leChars, if_neg hxy, decide_eq_true_eq] at h1
        simp only [leChars, if_neg hyx, decide_eq_true_eq] at h2
        omega

theorem leChars_trans {a b c : List Char} (h1 : leChars a b = true)
    (h2 : leChars b c = true) : leChars a c = true := by
  induction a generalizing b c with
  | nil => rfl
  | cons x xs ih =>
    cases b with
    | nil => simp [leChars] at h1
    | cons y ys =>
      cases c with
      | nil => simp [leChars] at h2
      | cons z zs =>
        by_cases hxy : x = y
        · subst hxy
          simp only [leChars, if_pos rfl] at h1
          by_cases hyz : x = z
          · subst hyz
            simp only [leChars, if_pos rfl] at h2 ⊢
            exact ih h1 h2
          · simpa [leChars, hyz] using h2
        · simp only [leChars, if_neg hxy, decide_eq_true_eq] at h1
          by_cases hyz : y = z
          · subst hyz
            simpa [leChars, hxy] using h1
          · simp only [leChars, if_neg hyz, decide_eq_true_eq] at h2
            by_cases hxz : x = z
            · subst hxz
              omega
            · simp only [leChars, if_neg hxz, decide_eq_true_eq]
              omega

theorem strLe_total (a b : String) : strLe a b = true ∨ strLe b a = true :=
  leChars_total a.data b.data

theorem strLe_antisymm {a b : String} (h1 : strLe a b = true) (h2 : strLe b a = true) :
    a = b := by
  cases a; cases b
  exact congrArg String.mk (leChars_antisymm h1 h2)

theorem strLe_trans {a b c : String} (h1 : strLe a b = true) (h2 : strLe b c = true) :
    strLe a c = true :=
  leChars_trans h1 h2

theorem insertBy_perm (key : α → String) (a : α) (l : List α) :
    (insertBy key a l).Perm (a :: l) := by
  induction l with
  | nil => exact List.Perm.refl _
  | cons b bs ih =>
    by_cases h : strLe (key a) (key b) = true
    · simp [insertBy, h]
    · simp only [insertBy, if_neg h]
      exact (ih.cons b).trans (List.Perm.swap a b bs)

theorem sortBy_perm (key : α → String) (l : List α) : (sortBy key l).Perm l := by
  induction l with
  | nil => exact List.Perm.refl _
  | cons a as ih => exact (insertBy_perm key a (sortBy key as)).trans (ih.cons a)

theorem insertBy_pairwise (key : α → String) (a : α) (l : List α)
    (h : l.Pairwise (fun x y => strLe (key x) (key y) = true)) :
    (insertBy key a l).Pairwise (fun x y => strLe (key x) (key y) = true) := by
  induction l with
  | nil => simp [insertBy]
  | cons b bs ih =>
    rcases List.pairwise_cons.mp h with ⟨hb, hbs⟩
    by_cases hab : strLe (key a) (key b) = true
    · simp only [insertBy, if_pos hab]
      refine List.pairwise_cons.mpr ⟨?_, h⟩
      intro y hy
      rcases List.mem_cons.mp hy with rfl | hy'
      · exact hab
      · exact strLe_trans hab (hb _ hy')
    · have hba : strLe (key b) (key a) = true := by
        rcases strLe_total (key a) (key b) with h' | h'
        · exact absurd h' hab
        · exact h'
      simp only [insertBy, if_neg hab]
      refine List.pairwise_cons.mpr ⟨?_, ih hbs⟩
      intro y hy
      rcases List.mem_cons.mp ((insertBy_perm key a bs).mem_iff.mp hy) with rfl | hy'
      · exact hba
      · exact hb _ hy'

theorem sortBy_pairwise (key : α → String) (l : List α) :
    (sortBy key l).Pairwise (fun x y => strLe (key x) (key y) = true) := by
  induction l with
  | nil => simp [sortBy]
  | cons a as ih => exact insertBy_pairwise key a _ ih

theorem sortBy_eq_of_perm (key : α → String) {l₁ l₂ : List α} (hp : l₁.Perm l₂)
    (hn : (l₁.map key).Nodup) : sortBy key l₁ = sortBy key l₂ := by
  have hperm : (sortBy key l₁).Perm (sortBy key l₂) :=
    (sortBy_perm key l₁).trans (hp.trans (sortBy_perm key l₂).symm)
  have hn₁ : ((sortBy key l₁).map key).Nodup :=
    (((sortBy_perm key l₁).map key).nodup_iff).mpr hn
  have hn₂ : ((sortBy key l₂).map key).Nodup := ((hperm.map key).nodup_iff).mp hn₁
  have hs₁ : (sortBy key l₁).Pairwise
      (fun x y => strLe (key x) (key y) = true ∧ key x ≠ key y) :=
    (sortBy_pairwise key l₁).and (List.pairwise_map.mp hn₁)
  have hs₂ : (sortBy key l₂).Pairwise
      (fun x y => strLe (key x) (key y) = true ∧ key x ≠ key y) :=
    (sortBy_pairwise key l₂).and (List.pairwise_map.mp hn₂)
  haveI : IsAntisymm α (fun x y => strLe (key x) (key y) = true ∧ key x ≠ key y) :=
    ⟨fun _ _ h1 h2 => absurd (strLe_antisymm h1.1 h2.1) h1.2⟩
  exact List.eq_of_perm_of_sorted hperm hs₁ hs₂

theorem insertBy_map_keyEq (key : α → String) (g : α → α) (hg : ∀ x, key (g x) = key x)
    (a : α) (l : List α) : insertBy key (g a) (l.map g) = (insertBy key a l).map g := by
  induction l with
  | nil => simp [insertBy]
  | cons b bs ih =>
    by_cases h : strLe (key a) (key b) = true
    · simp [insertBy, hg, h]
    · simp [insertBy, hg, h, ih]

theorem sortBy_map_keyEq (key : α → String) (g : α → α) (hg : ∀ x, key (g x) = key x)
    (l : List α) : sortBy key (l.map g) = (sortBy key l).map g := by
  induction l with
  | nil => simp [sortBy]
  | cons a as ih => simp only [List.map_cons, sortBy, ih, insertBy_map_keyEq key g hg]

theorem map_key_insertBy (key : α → String) (a : α) (l : List α) :
    (insertBy key a l).map key = insertBy id (key a) (l.map key) := by
  induction l with
  | nil => simp [insertBy]
  | cons b bs ih =>
    by_cases h : strLe (key a) (key b) = true
    · simp [insertBy, h]
    · simp [insertBy, h, ih]

theorem map_key_sortBy (key : α → String) (l : List α) :
    (sortBy key l).map key = sortBy id (l.map key) := by
  induction l with
  | nil => simp [sortBy]
  | cons a as ih => simp only [sortBy, List.map_cons, map_key_insertBy, ih]

theorem insertBy_of_le (key : α → String) (a : α) (l : List α)
    (h : ∀ y ∈ l, strLe (key a) (key y) = true) : insertBy key a l = a :: l := by
  cases l with
  | nil => rfl
  | cons b bs => simp [insertBy, h b (List.mem_cons_self b bs)]

theorem sortBy_of_pairwise (key : α → String) (l : List α)
    (h : l.Pairwise (fun x y => strLe (key x) (key y) = true)) : sortBy key l = l := by
  induction l with
  | nil => rfl
  | cons a as ih =>
    rcases List.pairwise_cons.mp h with ⟨ha, has⟩
    rw [sortBy, ih has]
    exact insertBy_of_le key a as ha

theorem sortBy_idem (key : α → String) (l : List α) :
    sortBy key (sortBy key l) = sortBy key l :=
  sortBy_of_pairwise key _ (sortBy_pairwise key l)

/-! Aggregation-map theory: lookups, keys and output of bumpStack folds. -/

theorem lookupCount_cons (e : String × Nat) (m : List (String × Nat)) (k : String) :
    lookupCount (e :: m) k = if e.1 = k then e.2 else lookupCount m k := by
  by_cases h : e.1 = k
  · simp [lookupCount, List.find?_cons_of_pos, h]
  · rw [lookupCount, List.find?_cons_of_neg _ (by simpa using h), if_neg h, lookupCount]

theorem lookupCount_nil (k : String) : lookupCount [] k = 0 := rfl

theorem lookupCount_bumpStack (m : List (String × Nat)) (k : String) (c : Nat)
    (k' : String) :
    lookupCount (bumpStack m k c) k' = lookupCount m k' + (if k' = k then c else 0) := by
  induction m with
  | nil =>
    rw [bumpStack, lookupCount_cons, lookupCount_nil]
    by_cases h : k' = k
    · subst h
      simp
    · rw [if_neg (fun hh => h hh.symm), if_neg h]
  | cons e m ih =>
    by_cases he : e.1 = k
    · rw [bumpStack, if_pos he, lookupCount_cons, lookupCount_cons]
      by_cases h' : e.1 = k'
      · subst h'
        simp [he]
      · rw [if_neg h', if_neg h', if_neg (fun hh => h' (he.trans hh.symm))]
        omega
    · rw [bumpStack, if_neg he, lookupCount_cons, lookupCount_cons]
      by_cases h' : e.1 = k'
      · rw [if_pos h', if_pos h', if_neg (fun hh => he (h'.trans hh))]
        omega
      · rw [if_neg h', if_neg h', ih]

theorem stackKeys_bumpStack (m : List (String × Nat)) (k : String) (c : Nat) :
    stackKeys (bumpStack m k c) =
      if k ∈ stackKeys m then stackKeys m else stackKeys m ++ [k] := by
  induction m with
  | nil => simp [bumpStack, stackKeys]
  | cons e m ih =>
    by_cases he : e.1 = k
    · rw [bumpStack, if_pos he]
      have hmem : k ∈ stackKeys (e :: m) := by
        simp only [stackKeys, List.map_cons, List.mem_cons]
        exact Or.inl he.symm
      rw [if_pos hmem]
      simp [stackKeys]
    · rw [bumpStack, if_neg he]
      have hiff : k ∈ stackKeys (e :: m) ↔ k ∈ stackKeys m := by
        simp only [stackKeys, List.map_cons, List.mem_cons]
        constructor
        · rintro (h | h)
          · exact absurd h.symm he
          · exact h
        · exact Or.inr
      by_cases hm : k ∈ stackKeys m
      · rw [if_pos (hiff.mpr hm)]
        show e.1 :: stackKeys (bumpStack m k c) = stackKeys (e :: m)
        rw [ih, if_pos hm]
        rfl
      · rw [if_neg (fun h => hm (hiff.mp h))]
        show e.1 :: stackKeys (bumpStack m k c) = stackKeys (e :: m) ++ [k]
        rw [ih, if_neg hm]
        rfl

theorem mem_stackKeys_bumpStack (m : List (String × Nat)) (k : String) (c : Nat)
    (k' : String) :
    k' ∈ stackKeys (bumpStack m k c) ↔ k' ∈ stackKeys m ∨ k' = k := by
  rw [stackKeys_bumpStack]
  by_cases hm : k ∈ stackKeys m
  · rw [if_pos hm]
    constructor
    · exact Or.inl
    · rintro (h | rfl)
      · exact h
      · exact hm
  · rw [if_neg hm]
    simp

theorem nodup_stackKeys_bumpStack (m : List (String × Nat)) (k : String) (c : Nat)
    (h : (stackKeys m).Nodup) : (stackKeys (bumpStack m k c)).Nodup := by
  rw [stackKeys_bumpStack]
  by_cases hm : k ∈ stackKeys m
  · rwa [if_pos hm]
  · rw [if_neg hm]
    exact List.nodup_append.mpr ⟨h, List.nodup_singleton k, by simpa using hm⟩

theorem lookupCount_foldl_bump (ws : List (String × Nat)) (m0 : List (String × Nat))
    (k : String) :
    lookupCount (ws.foldl (fun m w => bumpStack m w.1 w.2) m0) k =
      lookupCount m0 k + ((ws.filter (fun w => w.1 == k)).map Prod.snd).sum := by
  induction ws generalizing m0 with
  | nil => simp
  | cons w ws ih =>
    rw [List.foldl_cons, ih]
    rw [lookupCount_bumpStack]
    by_cases h : w.1 = k
    · rw [List.filter_cons_of_pos (by simpa using h), if_pos h.symm]
      simp only [List.map_cons, List.sum_cons]
      omega
    · rw [List.filter_cons_of_neg (by simpa using h), if_neg (fun hh => h hh.symm)]
      omega

theorem mem_keys_foldl_bump (ws : List (String × Nat)) (m0 : List (String × Nat))
    (k : String) :
    k ∈ stackKeys (ws.foldl (fun m w => bumpStack m w.1 w.2) m0) ↔
      k ∈ stackKeys m0 ∨ ∃ w ∈ ws, w.1 = k := by
  induction ws generalizing m0 with
  | nil => simp
  | cons w ws ih =>
    rw [List.foldl_cons, ih, mem_stackKeys_bumpStack]
    constructor
    · rintro ((h | rfl) | h)
      · exact Or.inl h
      · exact Or.inr ⟨w, List.mem_cons_self w ws, rfl⟩
      · rcases h with ⟨w', hw', hk⟩
        exact Or.inr ⟨w', List.mem_cons_of_mem w hw', hk⟩
    · rintro (h | ⟨w', hw', hk⟩)
      · exact Or.inl (Or.inl h)
      · rcases List.mem_cons.mp hw' with rfl | hw''
        · exact Or.inl (Or.inr hk.symm)
        · exact Or.inr ⟨w', hw'', hk⟩

theorem nodup_keys_foldl_bump (ws : List (String × Nat)) (m0 : List (String × Nat))
    (h : (stackKeys m0).Nodup) :
    (stackKeys (ws.foldl (fun m w => bumpStack m w.1 w.2) m0)).Nodup := by
  induction ws generalizing m0 with
  | nil => exact h
  | cons w ws ih => exact ih _ (nodup_stackKeys_bumpStack _ _ _ h)

theorem writeCollapsed_congr {m1 m2 : List (String × Nat)}
    (hk : (stackKeys m1).Perm (stackKeys m2)) (hn : (stackKeys m1).Nodup)
    (hl : ∀ k, lookupCount m1 k = lookupCount m2 k) :
    writeCollapsed m1 = writeCollapsed m2 := by
  have hs : sortBy id (stackKeys m1) = sortBy id (stackKeys m2) :=
    sortBy_eq_of_perm id hk (by simpa using hn)
  unfold writeCollapsed sortedEntries
  rw [hs]
  exact congrArg _ (List.map_congr_left (fun k _ => by rw [hl k]))

theorem writeCollapsed_aggregate_perm {ws1 ws2 : List (String × Nat)} (hp : ws1.Perm ws2) :
    writeCollapsed (aggregate ws1) = writeCollapsed (aggregate ws2) := by
  have hn1 : (stackKeys (aggregate ws1)).Nodup :=
    nodup_keys_foldl_bump _ _ (by simp [stackKeys])
  have hn2 : (stackKeys (aggregate ws2)).Nodup :=
    nodup_keys_foldl_bump _ _ (by simp [stackKeys])
  have hmem : ∀ k, k ∈ stackKeys (aggregate ws1) ↔ k ∈ stackKeys (aggregate ws2) := by
    intro k
    rw [aggregate, aggregate, mem_keys_foldl_bump, mem_keys_foldl_bump]
    constructor
    · rintro (h | ⟨w, hw, hk⟩)
      · simp [stackKeys] at h
      · exact Or.inr ⟨w, hp.mem_iff.mp hw, hk⟩
    · rintro (h | ⟨w, hw, hk⟩)
      · simp [stackKeys] at h
      · exact Or.inr ⟨w, hp.mem_iff.mpr hw, hk⟩
  refine writeCollapsed_congr ((List.perm_ext_iff_of_nodup hn1 hn2).mpr hmem) hn1 ?_
  intro k
  rw [aggregate, aggregate, lookupCount_foldl_bump, lookupCount_foldl_bump]
  rw [((hp.filter _).map Prod.snd).sum_eq]

theorem writeCollapsed_sorted_keys (m : List (String × Nat)) :
    ((sortedEntries m).map Prod.fst).Pairwise (fun a b => strLe a b = true) := by
  have : (sortedEntries m).map Prod.fst = sortBy id (stackKeys m) := by
    rw [sortedEntries, List.map_map]
    exact List.map_id _
  rw [this]
  exact sortBy_pairwise id (stackKeys m)

/-! CollapsePerf as a fold over record blocks. -/

theorem perfStep_nonblank (st : FoldSt) (l : String) (h : goTrim l ≠ "") :
    perfStep st l = ⟨st.stackMap, st.current ++ blockFrames [l]⟩ := by
  rw [perfStep]
  simp only [if_neg h]
  by_cases hf : isFrameLine l
  · simp only [if_pos hf, blockFrames, List.filterMap]
    cases hg : (goFields (goTrim l)).get? 1 with
    | none => simp [hg, List.filterMap, hf]
    | some fn => simp [hg, List.filterMap, hf]
  · simp [if_neg hf, blockFrames, List.filterMap, hf]

theorem blockFrames_cons (l : String) (b : List String) :
    blockFrames (l :: b) = blockFrames [l] ++ blockFrames b := by
  simp only [blockFrames, List.filterMap_cons]
  cases hf : (if isFrameLine l then ((goFields (goTrim l)).get? 1).map stripOffset
      else none) with
  | none => simp [List.filterMap_cons, hf]
  | some x => simp [List.filterMap_cons, hf]

theorem foldl_perfStep_block (b : List String) (hb : ∀ l ∈ b, goTrim l ≠ "")
    (st : FoldSt) :
    b.foldl perfStep st = ⟨st.stackMap, st.current ++ blockFrames b⟩ := by
  induction b generalizing st with
  | nil => simp [blockFrames]
  | cons l b ih =>
    rw [List.foldl_cons, perfStep_nonblank st l (hb l (List.mem_cons_self l b)),
      ih (fun x hx => hb x (List.mem_cons_of_mem l hx)), blockFrames_cons l b,
      List.append_assoc]

theorem foldl_perfStep_record (b : List String) (hb : ∀ l ∈ b, goTrim l ≠ "")
    (m : List (String × Nat)) :
    (b ++ [""]).foldl perfStep ⟨m, []⟩ =
      ⟨(match blockKey b with
        | some k => bumpStack m k 1
        | none => m), []⟩ := by
  rw [List.foldl_append, foldl_perfStep_block b hb]
  simp only [List.foldl_cons, List.foldl_nil, List.nil_append]
  rw [perfStep]
  simp only [goTrim, if_pos rfl]
  rw [flushPerf, blockKey]
  by_cases h : blockFrames b = []
  · simp [h]
  · simp [h]

theorem collapsePerf_blocks_fold (bs : List (List String))
    (hb : ∀ b ∈ bs, ∀ l ∈ b, goTrim l ≠ "") (m : List (String × Nat)) :
    (linesOfBlocks bs).foldl perfStep ⟨m, []⟩ =
      ⟨((bs.filterMap blockKey).map (fun k => (k, 1))).foldl
        (fun m' w => bumpStack m' w.1 w.2) m, []⟩ := by
  induction bs generalizing m with
  | nil => simp [linesOfBlocks]
  | cons b bs ih =>
    rw [linesOfBlocks, List.foldl_append,
      foldl_perfStep_record b (hb b (List.mem_cons_self b bs)),
      List.filterMap_cons]
    cases hk : blockKey b with
    | none => exact ih (fun x hx => hb x (List.mem_cons_of_mem b hx)) m
    | some k =>
      rw [List.map_cons, List.foldl_cons]
      exact ih (fun x hx => hb x (List.mem_cons_of_mem b hx)) _

theorem collapsePerf_blocks (bs : List (List String))
    (hb : ∀ b ∈ bs, ∀ l ∈ b, goTrim l ≠ "") :
    collapsePerf (linesOfBlocks bs) =
      writeCollapsed (aggregate ((bs.filterMap blockKey).map (fun k => (k, 1)))) := by
  rw [collapsePerf, collapsePerf_blocks_fold bs hb, aggregate]
  rfl

/-! CollapseDtrace as a fold over records. -/

theorem dtraceStep_frame (st : FoldSt) (l : String) (h1 : goTrim l ≠ "")
    (h2 : isCountLine (goTrim l) = false) :
    dtraceStep st l = ⟨st.stackMap, st.current ++ [stripOffset (dropModule (goTrim l))]⟩ := by
  rw [dtraceStep]
  simp only [if_neg h1, h2]
  simp

theorem foldl_dtraceStep_frames (fl : List String)
    (hfl : ∀ l ∈ fl, goTrim l ≠ "" ∧ isCountLine (goTrim l) = false) (st : FoldSt) :
    fl.foldl dtraceStep st =
      ⟨st.stackMap, st.current ++ fl.map (fun l => stripOffset (dropModule (goTrim l)))⟩ := by
  induction fl generalizing st with
  | nil => simp
  | cons l fl ih =>
    have h := hfl l (List.mem_cons_self l fl)
    rw [List.foldl_cons, dtraceStep_frame st l h.1 h.2,
      ih (fun x hx => hfl x (List.mem_cons_of_mem l hx))]
    simp

theorem foldl_dtraceStep_record (r : List String × String)
    (hfl : ∀ l ∈ r.1, goTrim l ≠ "" ∧ isCountLine (goTrim l) = false)
    (ht : goTrim r.2 = "" ∨ isCountLine (goTrim r.2) = true) (m : List (String × Nat)) :
    (r.1 ++ [r.2]).foldl dtraceStep ⟨m, []⟩ =
      ⟨(match dtraceKeyWeight r with
        | some w => bumpStack m w.1 w.2
        | none => m), []⟩ := by
  obtain ⟨fl, term⟩ := r
  rw [List.foldl_append, foldl_dtraceStep_frames fl hfl]
  simp only [List.foldl_cons, List.foldl_nil, List.nil_append]
  cases fl with
  | nil =>
    rcases ht with ht | ht
    · simp [dtraceStep, ht, dtraceKeyWeight]
    · have hne : goTrim term ≠ "" := by
        intro h0
        rw [h0] at ht
        simp [isCountLine] at ht
      simp [dtraceStep, hne, ht, dtraceKeyWeight]
  | cons x xs =>
    rcases ht with ht | ht
    · simp [dtraceStep, ht, dtraceKeyWeight]
    · have hne : goTrim term ≠ "" := by
        intro h0
        rw [h0] at ht
        simp [isCountLine] at ht
      simp [dtraceStep, ht, hne, dtraceKeyWeight]

theorem collapseDtrace_recs_fold (rs : List (List String × String))
    (hr : ∀ r ∈ rs, (∀ l ∈ r.1, goTrim l ≠ "" ∧ isCountLine (goTrim l) = false) ∧
      (goTrim r.2 = "" ∨ isCountLine (goTrim r.2) = true)) (m : List (String × Nat)) :
    (linesOfDtraceRecs rs).foldl dtraceStep ⟨m, []⟩ =
      ⟨(rs.filterMap dtraceKeyWeight).foldl (fun m' w => bumpStack m' w.1 w.2) m, []⟩ := by
  induction rs generalizing m with
  | nil => simp [linesOfDtraceRecs]
  | cons r rs ih =>
    have h := hr r (List.mem_cons_self r rs)
    rw [linesOfDtraceRecs, List.foldl_append,
      foldl_dtraceStep_record r h.1 h.2, List.filterMap_cons]
    cases hk : dtraceKeyWeight r with
    | none => exact ih (fun x hx => hr x (List.mem_cons_of_mem r hx)) m
    | some w =>
      rw [List.foldl_cons]
      exact ih (fun x hx => hr x (List.mem_cons_of_mem r hx)) _

theorem collapseDtrace_recs (rs : List (List String × String))
    (hr : ∀ r ∈ rs, (∀ l ∈ r.1, goTrim l ≠ "" ∧ isCountLine (goTrim l) = false) ∧
      (goTrim r.2 = "" ∨ isCountLine (goTrim r.2) = true)) :
    collapseDtrace (linesOfDtraceRecs rs) =
      writeCollapsed (aggregate (rs.filterMap dtraceKeyWeight)) := by
  rw [collapseDtrace, collapseDtrace_recs_fold rs hr, aggregate]

theorem flushPerf_flushPerf (st : FoldSt) : flushPerf (flushPerf st) = flushPerf st := by
  by_cases h : st.current = []
  · have h1 : flushPerf st = st := by rw [flushPerf, if_pos h]
    simp [h1]
  · have h1 : flushPerf st =
        ⟨bumpStack st.stackMap (joinSemi st.current.reverse) 1, []⟩ := by
      rw [flushPerf, if_neg h]
    rw [h1]
    simp [flushPerf]

/-! Path-indexed theory of the flame tree: prefixes, lookups, values. -/

theorem pfx_refl (p : List String) : pfx p p = true := by
  induction p with
  | nil => rfl
  | cons a as ih => simp [pfx, ih]

theorem pfx_length {p l : List String} (h : pfx p l = true) : p.length ≤ l.length := by
  induction p generalizing l with
  | nil => simp
  | cons a as ih =>
    cases l with
    | nil => simp [pfx] at h
    | cons b bs =>
      rw [pfx, Bool.and_eq_true] at h
      simpa using ih h.2

theorem pfx_eq_of_length {p l : List String} (h : pfx p l = true)
    (hl : l.length ≤ p.length) : p = l := by
  induction p generalizing l with
  | nil =>
    cases l with
    | nil => rfl
    | cons b bs => simp at hl
  | cons a as ih =>
    cases l with
    | nil => simp [pfx] at h
    | cons b bs =>
      rw [pfx, Bool.and_eq_true, beq_iff_eq] at h
      rw [h.1, ih h.2 (by simpa using hl)]

theorem pfx_snoc_iff {p : List String} {x : String} {l : List String} :
    pfx (p ++ [x]) l = true ↔ pfx p l = true ∧ l.get? p.length = some x := by
  induction p generalizing l with
  | nil =>
    cases l with
    | nil => simp [pfx]
    | cons b bs =>
      simp only [List.nil_append, pfx, Bool.and_eq_true, beq_iff_eq, Bool.and_true,
        List.length_nil, List.get?_cons_zero, Option.some_inj, true_and]
      exact eq_comm
  | cons a as ih =>
    cases l with
    | nil => simp [pfx]
    | cons b bs =>
      simp only [List.cons_append, pfx, Bool.and_eq_true, List.length_cons,
        List.get?_cons_succ, List.append_eq]
      rw [ih]
      tauto

theorem pfx_of_pfx_snoc {p : List String} {x : String} {l : List String}
    (h : pfx (p ++ [x]) l = true) : pfx p l = true :=
  (pfx_snoc_iff.mp h).1

theorem exists_next_of_strict {p l : List String} (h : pfx p l = true) (hne : l ≠ p) :
    ∃ x, l.get? p.length = some x := by
  have hlt : p.length < l.length := by
    rcases Nat.lt_or_ge p.length l.length with h' | h'
    · exact h'
    · exact absurd (pfx_eq_of_length h h').symm hne
  cases hx : l.get? p.length with
  | none => exact absurd (List.get?_eq_none.mp hx) (by omega)
  | some x => exact ⟨x, rfl⟩

theorem findChild_mem {cs : List Frame} {x : String} {c : Frame}
    (h : findChild cs x = some c) : c ∈ cs ∧ c.name = x := by
  refine ⟨List.mem_of_find?_eq_some h, ?_⟩
  have := List.find?_some h
  simpa [beq_iff_eq] using this

theorem findChild_cons (c : Frame) (cs : List Frame) (y : String) :
    findChild (c :: cs) y = if c.name = y then some c else findChild cs y := by
  by_cases h : c.name = y
  · simp [findChild, List.find?_cons, h]
  · simp [findChild, List.find?_cons, h]

theorem findChild_of_mem_nodup {cs : List Frame} {c : Frame}
    (hn : (cs.map Frame.name).Nodup) (hc : c ∈ cs) : findChild cs c.name = some c := by
  induction cs with
  | nil => simp at hc
  | cons d ds ih =>
    rcases List.mem_cons.mp hc with rfl | hc'
    · rw [findChild_cons, if_pos rfl]
    · have hn' := hn
      rw [List.map_cons, List.nodup_cons] at hn'
      have hdn : d.name ≠ c.name := by
        intro hdc
        exact hn'.1 (hdc ▸ List.mem_map_of_mem Frame.name hc')
      rw [findChild_cons, if_neg hdn]
      exact ih hn'.2 hc'

theorem findChild_setChild_same (cs : List Frame) (x : String) (nc : Frame)
    (h : nc.name = x) : findChild (setChild cs x nc) x = some nc := by
  induction cs with
  | nil => rw [setChild, findChild_cons, if_pos h]
  | cons c cs ih =>
    by_cases hc : c.name = x
    · rw [setChild, if_pos hc, findChild_cons, if_pos h]
    · rw [setChild, if_neg hc, findChild_cons, if_neg hc]
      exact ih

theorem findChild_setChild_ne (cs : List Frame) (x : String) (nc : Frame)
    (h : nc.name = x) (y : String) (hxy : y ≠ x) :
    findChild (setChild cs x nc) y = findChild cs y := by
  have hncy : ¬(nc.name = y) := by
    rw [h]
    exact fun hh => hxy hh.symm
  induction cs with
  | nil =>
    rw [setChild, findChild_cons, if_neg hncy]
  | cons c cs ih =>
    by_cases hc : c.name = x
    · have hcny : ¬(c.name = y) := by
        rw [hc]
        exact fun hh => hxy hh.symm
      rw [setChild, if_pos hc, findChild_cons, findChild_cons, if_neg hncy, if_neg hcny]
    · rw [setChild, if_neg hc, findChild_cons, findChild_cons]
      by_cases hcy : c.name = y
      · rw [if_pos hcy, if_pos hcy]
      · rw [if_neg hcy, if_neg hcy, ih]

theorem names_setChild (cs : List Frame) (x : String) (nc : Frame) (h : nc.name = x) :
    (setChild cs x nc).map Frame.name =
      if x ∈ cs.map Frame.name then cs.map Frame.name else cs.map Frame.name ++ [x] := by
  induction cs with
  | nil => simp [setChild, h]
  | cons c cs ih =>
    by_cases hc : c.name = x
    · rw [setChild, if_pos hc]
      have : x ∈ (c :: cs).map Frame.name := by
        simp only [List.map_cons, List.mem_cons]
        exact Or.inl hc.symm
      rw [if_pos this]
      simp [h, hc]
    · rw [setChild, if_neg hc]
      have hiff : x ∈ (c :: cs).map Frame.name ↔ x ∈ cs.map Frame.name := by
        simp only [List.map_cons, List.mem_cons]
        constructor
        · rintro (h' | h')
          · exact absurd h'.symm hc
          · exact h'
        · exact Or.inr
      by_cases hm : x ∈ cs.map Frame.name
      · rw [if_pos (hiff.mpr hm)]
        show c.name :: (setChild cs x nc).map Frame.name = (c :: cs).map Frame.name
        rw [ih, if_pos hm]
        rfl
      · rw [if_neg (fun h' => hm (hiff.mp h'))]
        show c.name :: (setChild cs x nc).map Frame.name = (c :: cs).map Frame.name ++ [x]
        rw [ih, if_neg hm]
        rfl

theorem addPath_name (t : Frame) (fs : List String) (cnt : Int) :
    (addPath t fs cnt).name = t.name := by
  cases fs with
  | nil => rfl
  | cons x rest => rfl

theorem addPath_value (t : Frame) (fs : List String) (cnt : Int) :
    (addPath t fs cnt).value = t.value := by
  cases fs with
  | nil => rfl
  | cons x rest => rfl

theorem findNode_append (t : Frame) (p q : List String) :
    findNode t (p ++ q) =
      match findNode t p with
      | some nd => findNode nd q
      | none => none := by
  induction p generalizing t with
  | nil => rfl
  | cons x p' ih =>
    have hl : findNode t (x :: (p' ++ q)) =
        (match findChild t.children x with
         | some c => findNode c (p' ++ q)
         | none => none) := rfl
    have hr : findNode t (x :: p') =
        (match findChild t.children x with
         | some c => findNode c p'
         | none => none) := rfl
    rw [List.cons_append, hl, hr]
    cases h : findChild t.children x with
    | none => rfl
    | some c => exact ih c

theorem valueAt_nil (t : Frame) : valueAt t [] = t.value := rfl

theorem valueAt_cons (t : Frame) (y : String) (q : List String) :
    valueAt t (y :: q) =
      match findChild t.children y with
      | some c => valueAt c q
      | none => 0 := by
  rw [valueAt, findNode]
  cases h : findChild t.children y with
  | none => rfl
  | some c => rfl

theorem valueAt_mk_cons (n : String) (v : Int) (cs : List Frame) (y : String)
    (q : List String) (t : Frame) (h : t.children = cs) :
    valueAt (Frame.mk n v cs) (y :: q) = valueAt t (y :: q) := by
  rw [valueAt_cons, valueAt_cons, h]
  rfl

theorem findNode_mk_cons (n : String) (v : Int) (cs : List Frame) (y : String)
    (q : List String) (t : Frame) (h : t.children = cs) :
    findNode (Frame.mk n v cs) (y :: q) = findNode t (y :: q) := by
  rw [findNode, findNode, h]
  rfl

theorem addPath_cons (t : Frame) (x : String) (rest : List String) (cnt : Int) :
    addPath t (x :: rest) cnt =
      Frame.mk t.name t.value (setChild t.children x
        (addPath (Frame.mk x
          ((match findChild t.children x with
            | some c => c
            | none => Frame.mk x 0 []).value + cnt)
          (match findChild t.children x with
            | some c => c
            | none => Frame.mk x 0 []).children) rest cnt)) := rfl

theorem addPath_cons_name (t : Frame) (x : String) (rest : List String) (cnt : Int)
    (c0 : Frame) :
    (addPath (Frame.mk x (c0.value + cnt) c0.children) rest cnt).name = x := by
  rw [addPath_name]
  rfl

theorem valueAt_addPath (fs : List String) (cnt : Int) :
    ∀ (t : Frame) (p : List String), p ≠ [] →
      valueAt (addPath t fs cnt) p = valueAt t p + (if pfx p fs = true then cnt else 0) := by
  induction fs with
  | nil =>
    intro t p hp
    cases p with
    | nil => exact absurd rfl hp
    | cons y q => simp [addPath, pfx]
  | cons x rest ih =>
    intro t p hp
    cases p with
    | nil => exact absurd rfl hp
    | cons y q =>
      rw [addPath_cons]
      by_cases hyx : y = x
      · subst hyx
        cases hc0 : findChild t.children y with
        | some c0 =>
          rw [valueAt_cons]
          show (match findChild (setChild t.children y
              (addPath (Frame.mk y (c0.value + cnt) c0.children) rest cnt)) y with
            | some c => valueAt c q
            | none => 0) = _
          rw [findChild_setChild_same _ _ _ (addPath_cons_name t y rest cnt c0)]
          have hrhs : valueAt t (y :: q) = valueAt c0 q := by
            rw [valueAt_cons, hc0]
          rw [hrhs]
          have hpfx : pfx (y :: q) (y :: rest) = pfx q rest := by
            simp [pfx]
          rw [hpfx]
          show valueAt (addPath (Frame.mk y (c0.value + cnt) c0.children) rest cnt) q =
            valueAt c0 q + (if pfx q rest = true then cnt else 0)
          cases q with
          | nil =>
            rw [valueAt_nil, addPath_value, valueAt_nil]
            show c0.value + cnt = c0.value + _
            simp [pfx]
          | cons y' q' =>
            rw [ih _ (y' :: q') (by simp),
              valueAt_mk_cons y (c0.value + cnt) c0.children y' q' c0 rfl]
        | none =>
          rw [valueAt_cons]
          show (match findChild (setChild t.children y
              (addPath (Frame.mk y ((Frame.mk y 0 []).value + cnt)
                (Frame.mk y 0 []).children) rest cnt)) y with
            | some c => valueAt c q
            | none => 0) = _
          rw [findChild_setChild_same _ _ _ (addPath_cons_name t y rest cnt (Frame.mk y 0 []))]
          have hrhs : valueAt t (y :: q) = 0 := by
            rw [valueAt_cons, hc0]
          rw [hrhs]
          have hpfx : pfx (y :: q) (y :: rest) = pfx q rest := by
            simp [pfx]
          rw [hpfx]
          show valueAt (addPath (Frame.mk y ((0 : Int) + cnt) []) rest cnt) q =
            0 + (if pfx q rest = true then cnt else 0)
          cases q with
          | nil =>
            rw [valueAt_nil, addPath_value]
            show (0 : Int) + cnt = 0 + _
            simp [pfx]
          | cons y' q' =>
            rw [ih _ (y' :: q') (by simp)]
            have h0 : valueAt (Frame.mk y ((0 : Int) + cnt) []) (y' :: q') = 0 := by
              rw [valueAt_cons]
              rfl
            rw [h0]
      · rw [valueAt_cons]
        show (match findChild (setChild t.children x _) y with
          | some c => valueAt c q
          | none => 0) = _
        rw [findChild_setChild_ne _ _ _ (addPath_cons_name t x rest cnt _) y hyx]
        have hpfx : pfx (y :: q) (x :: rest) = false := by
          simp [pfx, hyx]
        rw [hpfx]
        rw [valueAt_cons]
        simp

theorem isSome_addPath (fs : List String) (cnt : Int) :
    ∀ (t : Frame) (p : List String), p ≠ [] →
      ((findNode (addPath t fs cnt) p).isSome ↔
        (findNode t p).isSome ∨ pfx p fs = true) := by
  induction fs with
  | nil =>
    intro t p hp
    cases p with
    | nil => exact absurd rfl hp
    | cons y q => simp [addPath, pfx]
  | cons x rest ih =>
    intro t p hp
    cases p with
    | nil => exact absurd rfl hp
    | cons y q =>
      rw [addPath_cons]
      by_cases hyx : y = x
      · subst hyx
        cases hc0 : findChild t.children y with
        | some c0 =>
          have hrhs : findNode t (y :: q) = findNode c0 q := by
            rw [findNode, hc0]
          rw [hrhs]
          have hstep : findNode (Frame.mk t.name t.value (setChild t.children y
              (addPath (Frame.mk y (c0.value + cnt) c0.children) rest cnt))) (y :: q) =
              findNode (addPath (Frame.mk y (c0.value + cnt) c0.children) rest cnt) q := by
            show (match findChild (setChild t.children y
                (addPath (Frame.mk y (c0.value + cnt) c0.children) rest cnt)) y with
              | some c => findNode c q
              | none => none) = _
            rw [findChild_setChild_same _ _ _ (addPath_cons_name t y rest cnt c0)]
          rw [hstep]
          have hpfx : pfx (y :: q) (y :: rest) = pfx q rest := by
            simp [pfx]
          rw [hpfx]
          cases q with
          | nil => simp [pfx, findNode]
          | cons y' q' =>
            rw [ih _ (y' :: q') (by simp),
              findNode_mk_cons y (c0.value + cnt) c0.children y' q' c0 rfl]
        | none =>
          have hrhs : findNode t (y :: q) = none := by
            rw [findNode, hc0]
          rw [hrhs]
          have hstep : findNode (Frame.mk t.name t.value (setChild t.children y
              (addPath (Frame.mk y ((Frame.mk y 0 []).value + cnt)
                (Frame.mk y 0 []).children) rest cnt))) (y :: q) =
              findNode (addPath (Frame.mk y ((0 : Int) + cnt) []) rest cnt) q := by
            show (match findChild (setChild t.children y
                (addPath (Frame.mk y ((0 : Int) + cnt) []) rest cnt)) y with
              | some c => findNode c q
              | none => none) = _
            have hname : (addPath (Frame.mk y ((0 : Int) + cnt) []) rest cnt).name = y := by
              rw [addPath_name]
              rfl
            rw [findChild_setChild_same _ _ _ hname]
          rw [hstep]
          have hpfx : pfx (y :: q) (y :: rest) = pfx q rest := by
            simp [pfx]
          rw [hpfx]
          cases q with
          | nil => simp [pfx, findNode]
          | cons y' q' =>
            rw [ih _ (y' :: q') (by simp)]
            have h0 : findNode (Frame.mk y ((0 : Int) + cnt) []) (y' :: q') = none := rfl
            rw [h0]
      · have hstep : findNode (Frame.mk t.name t.value (setChild t.children x
            (addPath (Frame.mk x
              ((match findChild t.children x with
                | some c => c
                | none => Frame.mk x 0 []).value + cnt)
              (match findChild t.children x with
                | some c => c
                | none => Frame.mk x 0 []).children) rest cnt))) (y :: q) =
            findNode t (y :: q) := by
          show (match findChild (setChild t.children x _) y with
            | some c => findNode c q
            | none => none) = _
          rw [findChild_setChild_ne _ _ _ (addPath_cons_name t x rest cnt _) y hyx, findNode]
        rw [hstep]
        have hpfx : pfx (y :: q) (x :: rest) = false := by
          simp [pfx, hyx]
        rw [hpfx]
        simp


theorem valueAt_applyRecord (t : Frame) (fs : List String) (cnt : Int) (p : List String) :
    valueAt (applyRecord t fs cnt) p = valueAt t p + (if pfx p fs = true then cnt else 0) := by
  cases p with
  | nil =>
    rw [valueAt_nil, valueAt_nil]
    show (addPath t fs cnt).value + cnt = _
    rw [addPath_value]
    have : pfx [] fs = true := rfl
    rw [if_pos this]
  | cons y q =>
    rw [show applyRecord t fs cnt = Frame.mk (addPath t fs cnt).name
        ((addPath t fs cnt).value + cnt) (addPath t fs cnt).children from rfl,
      valueAt_mk_cons _ _ _ y q (addPath t fs cnt) rfl]
    exact valueAt_addPath fs cnt t (y :: q) (by simp)

theorem isSome_applyRecord (t : Frame) (fs : List String) (cnt : Int) (y : String)
    (q : List String) :
    ((findNode (applyRecord t fs cnt) (y :: q)).isSome ↔
      (findNode t (y :: q)).isSome ∨ pfx (y :: q) fs = true) := by
  rw [show applyRecord t fs cnt = Frame.mk (addPath t fs cnt).name
      ((addPath t fs cnt).value + cnt) (addPath t fs cnt).children from rfl,
    findNode_mk_cons _ _ _ y q (addPath t fs cnt) rfl]
  exact isSome_addPath fs cnt t (y :: q) (by simp)

theorem pathWeight_cons (r : List String × Int) (R : List (List String × Int))
    (p : List String) :
    pathWeight (r :: R) p = (if pfx p r.1 = true then r.2 else 0) + pathWeight R p := by
  simp [pathWeight]

theorem endWeight_cons (r : List String × Int) (R : List (List String × Int))
    (p : List String) :
    endWeight (r :: R) p = (if r.1 = p then r.2 else 0) + endWeight R p := by
  simp [endWeight]

theorem valueAt_fold (R : List (List String × Int)) :
    ∀ (t0 : Frame) (p : List String),
      valueAt (R.foldl (fun t r => applyRecord t r.1 r.2) t0) p =
        valueAt t0 p + pathWeight R p := by
  induction R with
  | nil =>
    intro t0 p
    simp [pathWeight]
  | cons r R ih =>
    intro t0 p
    rw [List.foldl_cons, ih, valueAt_applyRecord, pathWeight_cons, add_assoc]

theorem isSome_fold (R : List (List String × Int)) :
    ∀ (t0 : Frame) (y : String) (q : List String),
      ((findNode (R.foldl (fun t r => applyRecord t r.1 r.2) t0) (y :: q)).isSome ↔
        (findNode t0 (y :: q)).isSome ∨ ∃ r ∈ R, pfx (y :: q) r.1 = true) := by
  induction R with
  | nil =>
    intro t0 y q
    simp
  | cons r R ih =>
    intro t0 y q
    rw [List.foldl_cons, ih, isSome_applyRecord]
    constructor
    · rintro ((h | h) | ⟨r', hr', h⟩)
      · exact Or.inl h
      · exact Or.inr ⟨r, List.mem_cons_self r R, h⟩
      · exact Or.inr ⟨r', List.mem_cons_of_mem r hr', h⟩
    · rintro (h | ⟨r', hr', h⟩)
      · exact Or.inl (Or.inl h)
      · rcases List.mem_cons.mp hr' with rfl | hr''
        · exact Or.inl (Or.inr h)
        · exact Or.inr ⟨r', hr'', h⟩

theorem valueAt_rootFrame (p : List String) : valueAt rootFrame p = 0 := by
  cases p with
  | nil => rfl
  | cons y q => rfl

theorem valueAt_buildRoot (lines : List String) (p : List String) :
    valueAt (buildRoot lines) p = pathWeight (parsedRecords lines) p := by
  rw [buildRoot, valueAt_fold, valueAt_rootFrame, zero_add]

theorem isSome_buildRoot (lines : List String) (y : String) (q : List String) :
    ((findNode (buildRoot lines) (y :: q)).isSome ↔
      ∃ r ∈ parsedRecords lines, pfx (y :: q) r.1 = true) := by
  rw [buildRoot, isSome_fold]
  have : findNode rootFrame (y :: q) = none := rfl
  rw [this]
  simp

/-! Name uniqueness is an invariant of tree construction. -/

theorem nodupNames_descend {t : Frame} {p : List String} {nd : Frame}
    (h : NodupNames t) (hf : findNode t p = some nd) : NodupNames nd := by
  intro q nd' hq
  refine h (p ++ q) nd' ?_
  rw [findNode_append, hf]
  exact hq

theorem nodupNames_mk_of_children {t : Frame} (h : NodupNames t) (n : String) (v : Int) :
    NodupNames (Frame.mk n v t.children) := by
  intro p nd hf
  cases p with
  | nil =>
    cases hf
    exact h [] t rfl
  | cons y q =>
    rw [findNode_mk_cons n v t.children y q t rfl] at hf
    exact h (y :: q) nd hf

theorem nodupNames_leaf (n : String) (v : Int) : NodupNames (Frame.mk n v []) := by
  intro p nd hf
  cases p with
  | nil =>
    cases hf
    exact List.nodup_nil
  | cons y q =>
    exact absurd hf (by rw [findNode]; exact fun h => Option.noConfusion h)

theorem nodupNames_addPath (fs : List String) (cnt : Int) :
    ∀ (t : Frame), NodupNames t → NodupNames (addPath t fs cnt) := by
  induction fs with
  | nil =>
    intro t ht
    exact ht
  | cons x rest ih =>
    intro t ht
    rw [addPath_cons]
    cases hc0 : findChild t.children x with
    | some c0 =>
      have hc0node : NodupNames c0 := by
        refine nodupNames_descend (p := [x]) ht ?_
        rw [findNode, hc0]
        rfl
      have hd : NodupNames (addPath (Frame.mk x (c0.value + cnt) c0.children) rest cnt) :=
        ih _ (nodupNames_mk_of_children hc0node x (c0.value + cnt))
      show NodupNames (Frame.mk t.name t.value (setChild t.children x
        (addPath (Frame.mk x (c0.value + cnt) c0.children) rest cnt)))
      intro p nd hf
      cases p with
      | nil =>
        cases hf
        show ((setChild t.children x _).map Frame.name).Nodup
        rw [names_setChild _ _ _ (addPath_cons_name t x rest cnt c0)]
        have hroot : (t.children.map Frame.name).Nodup := ht [] t rfl
        by_cases hm : x ∈ t.children.map Frame.name
        · rwa [if_pos hm]
        · rw [if_neg hm]
          exact List.nodup_append.mpr ⟨hroot, List.nodup_singleton x, by simpa using hm⟩
      | cons y q =>
        by_cases hyx : y = x
        · subst hyx
          have hstep : findNode (Frame.mk t.name t.value (setChild t.children y
              (addPath (Frame.mk y (c0.value + cnt) c0.children) rest cnt))) (y :: q) =
              findNode (addPath (Frame.mk y (c0.value + cnt) c0.children) rest cnt) q := by
            show (match findChild (setChild t.children y
                (addPath (Frame.mk y (c0.value + cnt) c0.children) rest cnt)) y with
              | some c => findNode c q
              | none => none) = _
            rw [findChild_setChild_same _ _ _ (addPath_cons_name t y rest cnt c0)]
          rw [hstep] at hf
          exact hd q nd hf
        · have hstep : findNode (Frame.mk t.name t.value (setChild t.children x
              (addPath (Frame.mk x (c0.value + cnt) c0.children) rest cnt))) (y :: q) =
              findNode t (y :: q) := by
            show (match findChild (setChild t.children x
                (addPath (Frame.mk x (c0.value + cnt) c0.children) rest cnt)) y with
              | some c => findNode c q
              | none => none) = _
            rw [findChild_setChild_ne _ _ _ (addPath_cons_name t x rest cnt c0) y hyx,
              findNode]
          rw [hstep] at hf
          exact ht (y :: q) nd hf
    | none =>
      have hd : NodupNames (addPath (Frame.mk x ((0 : Int) + cnt) []) rest cnt) :=
        ih _ (nodupNames_leaf x ((0 : Int) + cnt))
      have hname : (addPath (Frame.mk x ((0 : Int) + cnt) []) rest cnt).name = x := by
        rw [addPath_name]
        rfl
      show NodupNames (Frame.mk t.name t.value (setChild t.children x
        (addPath (Frame.mk x ((0 : Int) + cnt) []) rest cnt)))
      intro p nd hf
      cases p with
      | nil =>
        cases hf
        show ((setChild t.children x _).map Frame.name).Nodup
        rw [names_setChild _ _ _ hname]
        have hroot : (t.children.map Frame.name).Nodup := ht [] t rfl
        by_cases hm : x ∈ t.children.map Frame.name
        · rwa [if_pos hm]
        · rw [if_neg hm]
          exact List.nodup_append.mpr ⟨hroot, List.nodup_singleton x, by simpa using hm⟩
      | cons y q =>
        by_cases hyx : y = x
        · subst hyx
          have hstep : findNode (Frame.mk t.name t.value (setChild t.children y
              (addPath (Frame.mk y ((0 : Int) + cnt) []) rest cnt))) (y :: q) =
              findNode (addPath (Frame.mk y ((0 : Int) + cnt) []) rest cnt) q := by
            show (match findChild (setChild t.children y
                (addPath (Frame.mk y ((0 : Int) + cnt) []) rest cnt)) y with
              | some c => findNode c q
              | none => none) = _
            rw [findChild_setChild_same _ _ _ hname]
          rw [hstep] at hf
          exact hd q nd hf
        · have hstep : findNode (Frame.mk t.name t.value (setChild t.children x
              (addPath (Frame.mk x ((0 : Int) + cnt) []) rest cnt))) (y :: q) =
              findNode t (y :: q) := by
            show (match findChild (setChild t.children x
                (addPath (Frame.mk x ((0 : Int) + cnt) []) rest cnt)) y with
              | some c => findNode c q
              | none => none) = _
            rw [findChild_setChild_ne _ _ _ hname y hyx, findNode]
          rw [hstep] at hf
          exact ht (y :: q) nd hf

theorem nodupNames_applyRecord (t : Frame) (fs : List String) (cnt : Int)
    (h : NodupNames t) : NodupNames (applyRecord t fs cnt) := by
  rw [show applyRecord t fs cnt = Frame.mk (addPath t fs cnt).name
      ((addPath t fs cnt).value + cnt) (addPath t fs cnt).children from rfl]
  exact nodupNames_mk_of_children (nodupNames_addPath fs cnt t h) _ _

theorem nodupNames_buildRoot (lines : List String) : NodupNames (buildRoot lines) := by
  rw [buildRoot]
  have hfold : ∀ (R : List (List String × Int)) (t0 : Frame), NodupNames t0 →
      NodupNames (R.foldl (fun t r => applyRecord t r.1 r.2) t0) := by
    intro R
    induction R with
    | nil => exact fun t0 h => h
    | cons r R ih =>
      intro t0 h
      rw [List.foldl_cons]
      exact ih _ (nodupNames_applyRecord t0 r.1 r.2 h)
  exact hfold _ rootFrame (nodupNames_leaf "root" 0)

/-! Summation helpers and the per-node weight decomposition. -/

theorem sum_map_add (l : List α) (f g : α → Int) :
    (l.map (fun a => f a + g a)).sum = (l.map f).sum + (l.map g).sum := by
  induction l with
  | nil => simp
  | cons a l ih =>
    simp only [List.map_cons, List.sum_cons, ih]
    ring

theorem sum_swap (xs : List α) (ys : List β) (f : α → β → Int) :
    (xs.map (fun x => (ys.map (f x)).sum)).sum =
      (ys.map (fun y => (xs.map (fun x => f x y)).sum)).sum := by
  induction xs with
  | nil => simp
  | cons a xs ih =>
    simp only [List.map_cons, List.sum_cons, ih]
    rw [← sum_map_add]

theorem sum_map_zero (l : List α) (f : α → Int) (h : ∀ a ∈ l, f a = 0) :
    (l.map f).sum = 0 := by
  rw [List.sum_eq_zero]
  intro x hx
  rcases List.mem_map.mp hx with ⟨a, ha, rfl⟩
  exact h a ha

theorem sum_ite_eq_of_mem_nodup (ns : List String) (x0 : String) (v : Int)
    (hmem : x0 ∈ ns) (hn : ns.Nodup) :
    (ns.map (fun x => if x = x0 then v else 0)).sum = v := by
  induction ns with
  | nil => simp at hmem
  | cons a ns ih =>
    rcases List.nodup_cons.mp hn with ⟨ha, hns⟩
    rcases List.mem_cons.mp hmem with rfl | hmem'
    · simp only [List.map_cons, List.sum_cons]
      have hz : (ns.map (fun x => if x = x0 then v else 0)).sum = 0 :=
        sum_map_zero _ _ (fun x hx => if_neg (fun hxa : x = x0 => ha (hxa ▸ hx)))
      rw [hz, add_zero]
      simp
    · have hax0 : a ≠ x0 := fun h => ha (h ▸ hmem')
      simp only [List.map_cons, List.sum_cons]
      rw [if_neg hax0, ih hmem' hns, zero_add]

theorem pathWeight_decomp (R : List (List String × Int)) (p : List String)
    (ns : List String) (hn : ns.Nodup)
    (hc : ∀ r ∈ R, pfx p r.1 = true → r.1 ≠ p →
      ∃ x ∈ ns, pfx (p ++ [x]) r.1 = true) :
    pathWeight R p = endWeight R p + (ns.map (fun x => pathWeight R (p ++ [x]))).sum := by
  have hrec : ∀ r ∈ R, (if pfx p r.1 = true then r.2 else 0) =
      (if r.1 = p then r.2 else 0) +
        (ns.map (fun x => if pfx (p ++ [x]) r.1 = true then r.2 else 0)).sum := by
    intro r hr
    by_cases h1 : pfx p r.1 = true
    · by_cases h2 : r.1 = p
      · rw [if_pos h1, if_pos h2]
        rw [sum_map_zero, add_zero]
        intro x hx
        rw [if_neg]
        intro hp
        have := pfx_length hp
        rw [h2] at this
        simp at this
      · rw [if_pos h1, if_neg h2]
        obtain ⟨x0, hx0mem, hx0⟩ := hc r hr h1 h2
        have huniq : ∀ x, pfx (p ++ [x]) r.1 = true → x = x0 := by
          intro x hx
          have hgx := (pfx_snoc_iff.mp hx).2
          have hgx0 := (pfx_snoc_iff.mp hx0).2
          rw [hgx] at hgx0
          exact Option.some_inj.mp hgx0
        have hmapeq : ns.map (fun x => if pfx (p ++ [x]) r.1 = true then r.2 else 0) =
            ns.map (fun x => if x = x0 then r.2 else 0) := by
          refine List.map_congr_left ?_
          intro x _
          by_cases hx : pfx (p ++ [x]) r.1 = true
          · rw [if_pos hx, if_pos (huniq x hx)]
          · rw [if_neg hx, if_neg]
            intro hxx0
            exact hx (hxx0 ▸ hx0)
        rw [hmapeq, sum_ite_eq_of_mem_nodup ns x0 r.2 hx0mem hn, zero_add]
    · have h2 : r.1 ≠ p := by
        intro hrp
        exact h1 (hrp ▸ pfx_refl p)
      have hz : (ns.map (fun x => if pfx (p ++ [x]) r.1 = true then r.2 else 0)).sum = 0 :=
        sum_map_zero _ _ (fun x _ => if_neg (fun hp => h1 (pfx_of_pfx_snoc hp)))
      rw [if_neg h1, if_neg h2, hz, add_zero]
  have hstep : pathWeight R p =
      (R.map (fun r => (if r.1 = p then r.2 else 0) +
        (ns.map (fun x => if pfx (p ++ [x]) r.1 = true then r.2 else 0)).sum)).sum := by
    rw [pathWeight]
    exact congrArg List.sum (List.map_congr_left hrec)
  rw [hstep, sum_map_add]
  have hswap : (R.map (fun r =>
      (ns.map (fun x => if pfx (p ++ [x]) r.1 = true then r.2 else 0)).sum)).sum =
      (ns.map (fun x => pathWeight R (p ++ [x]))).sum := by
    rw [sum_swap]
    rfl
  rw [hswap]
  rfl

/-! The per-node conservation law of the built tree. -/

theorem buildRoot_node_decomp (lines : List String) (p : List String) (nd : Frame)
    (h : findNode (buildRoot lines) p = some nd) :
    nd.value = childrenValueSum nd + endWeight (parsedRecords lines) p := by
  have hval : nd.value = pathWeight (parsedRecords lines) p := by
    have h1 : valueAt (buildRoot lines) p = nd.value := by
      rw [valueAt, h]
    rw [← h1, valueAt_buildRoot]
  have hnodup : (nd.children.map Frame.name).Nodup :=
    nodupNames_buildRoot lines p nd h
  have hchild : ∀ c ∈ nd.children, c.value = pathWeight (parsedRecords lines) (p ++ [c.name]) := by
    intro c hc
    have hfc : findNode (buildRoot lines) (p ++ [c.name]) = some c := by
      rw [findNode_append, h]
      show findNode nd [c.name] = some c
      rw [findNode, findChild_of_mem_nodup hnodup hc]
      rfl
    have h2 := valueAt_buildRoot lines (p ++ [c.name])
    rw [valueAt, hfc] at h2
    exact h2
  have hcomp : ∀ r ∈ parsedRecords lines, pfx p r.1 = true → r.1 ≠ p →
      ∃ x ∈ nd.children.map Frame.name, pfx (p ++ [x]) r.1 = true := by
    intro r hr h1 h2
    obtain ⟨x0, hx0⟩ := exists_next_of_strict h1 h2
    have hpfx : pfx (p ++ [x0]) r.1 = true := pfx_snoc_iff.mpr ⟨h1, hx0⟩
    have hsome : (findNode (buildRoot lines) (p ++ [x0])).isSome := by
      cases hp : p ++ [x0] with
      | nil => exact absurd hp (by simp)
      | cons y q =>
        rw [isSome_buildRoot]
        exact ⟨r, hr, hp ▸ hpfx⟩
    rw [findNode_append, h] at hsome
    have hsome' : (findNode nd [x0]).isSome := hsome
    cases hfc : findChild nd.children x0 with
    | none =>
      rw [show findNode nd [x0] = (match findChild nd.children x0 with
        | some c => some c
        | none => none) from by rw [findNode]; cases hfc' : findChild nd.children x0 <;> rfl,
        hfc] at hsome'
      simp at hsome'
    | some c =>
      obtain ⟨hcmem, hcname⟩ := findChild_mem hfc
      exact ⟨x0, hcname ▸ List.mem_map_of_mem Frame.name hcmem, hpfx⟩
  have hsum : childrenValueSum nd =
      ((nd.children.map Frame.name).map
        (fun x => pathWeight (parsedRecords lines) (p ++ [x]))).sum := by
    rw [childrenValueSum, List.map_map]
    exact congrArg List.sum (List.map_congr_left (fun c hc => hchild c hc))
  rw [hval, pathWeight_decomp (parsedRecords lines) p (nd.children.map Frame.name)
    hnodup hcomp, hsum, add_comm]

theorem buildRoot_value (lines : List String) :
    (buildRoot lines).value = totalSamplesOf lines := by
  have h := valueAt_buildRoot lines []
  rw [valueAt_nil] at h
  rw [h, pathWeight, totalSamplesOf]
  exact congrArg List.sum (List.map_congr_left (fun r _ => by simp [pfx]))

/-! Canonical forms: rendering depends only on the map content of the tree,
not on the insertion order of children. -/

theorem canon_mk (n : String) (v : Int) (cs : List Frame) :
    canon (Frame.mk n v cs) = Frame.mk n v (sortBy Frame.name (canonList cs)) := by
  simp [canon]

theorem canonList_eq_map (cs : List Frame) : canonList cs = cs.map canon := by
  induction cs with
  | nil => simp [canonList]
  | cons c cs ih => simp [canonList, ih]

theorem canon_name (t : Frame) : (canon t).name = t.name := by
  cases t with
  | mk n v cs =>
    rw [canon_mk]
    rfl

theorem canon_value (t : Frame) : (canon t).value = t.value := by
  cases t with
  | mk n v cs =>
    rw [canon_mk]
    rfl

theorem frame_sizeOf_pos (t : Frame) : 0 < sizeOf t := by
  cases t with
  | mk n v cs =>
    simp only [Frame.mk.sizeOf_spec]
    omega

theorem sizeOf_child_lt {c : Frame} {cs : List Frame} (n : String) (v : Int)
    (h : c ∈ cs) : sizeOf c < sizeOf (Frame.mk n v cs) := by
  have := List.sizeOf_lt_of_mem h
  simp only [Frame.mk.sizeOf_spec]
  omega

theorem getMaxDepthList_perm {l1 l2 : List Frame} (hp : l1.Perm l2) :
    ∀ d m, getMaxDepthList l1 d m = getMaxDepthList l2 d m := by
  induction hp with
  | nil => intro d m; rfl
  | cons c _ ih =>
    intro d m
    simp only [getMaxDepthList]
    exact ih d _
  | swap a b l =>
    intro d m
    simp only [getMaxDepthList]
    congr 1
    split_ifs <;> omega
  | trans _ _ ih1 ih2 =>
    intro d m
    rw [ih1, ih2]

theorem getMaxDepth_canon (t : Frame) (d : Nat) :
    getMaxDepth (canon t) d = getMaxDepth t d := by
  suffices h : ∀ (N : Nat) (t : Frame), sizeOf t ≤ N → ∀ d,
      getMaxDepth (canon t) d = getMaxDepth t d from h (sizeOf t) t le_rfl d
  intro N
  induction N with
  | zero =>
    intro t h
    exact absurd h (by have := frame_sizeOf_pos t; omega)
  | succ N ih =>
    intro t h d
    cases t with
    | mk n v cs =>
      rw [canon_mk]
      simp only [getMaxDepth]
      rw [getMaxDepthList_perm (sortBy_perm Frame.name (canonList cs)) d d,
        canonList_eq_map]
      have hlist : ∀ (l : List Frame), (∀ c ∈ l, sizeOf c ≤ N) → ∀ m,
          getMaxDepthList (l.map canon) d m = getMaxDepthList l d m := by
        intro l
        induction l with
        | nil => intro _ m; rfl
        | cons c l ihl =>
          intro hszs m
          simp only [List.map_cons, getMaxDepthList]
          rw [ih c (hszs c (List.mem_cons_self c l)) (d + 1)]
          exact ihl (fun c' hc' => hszs c' (List.mem_cons_of_mem _ hc')) _
      exact hlist cs
        (fun c hc => by have := sizeOf_child_lt n v hc; omega) d

theorem nodup_of_nodupStr {l : List String} (h : nodupStr l = true) : l.Nodup := by
  induction l with
  | nil => exact List.nodup_nil
  | cons x xs ih =>
    rw [nodupStr, Bool.and_eq_true] at h
    refine List.nodup_cons.mpr ⟨?_, ih h.2⟩
    intro hmem
    have hany : xs.any (fun y => y == x) = true := by
      rw [List.any_eq_true]
      exact ⟨x, hmem, by simp⟩
    have h1 := h.1
    rw [hany] at h1
    simp at h1

theorem wfList_mem {cs : List Frame} {c : Frame} (h : wfList cs = true) (hc : c ∈ cs) :
    wfNames c = true := by
  induction cs with
  | nil => simp at hc
  | cons d ds ih =>
    rw [wfList, Bool.and_eq_true] at h
    rcases List.mem_cons.mp hc with rfl | hc'
    · exact h.1
    · exact ih h.2 hc'

theorem nodupNames_of_wfNames (t : Frame) (hwf : wfNames t = true) : NodupNames t := by
  suffices h : ∀ (N : Nat) (t : Frame), sizeOf t ≤ N → wfNames t = true → NodupNames t from
    h (sizeOf t) t le_rfl hwf
  intro N
  induction N with
  | zero =>
    intro t h
    exact absurd h (by have := frame_sizeOf_pos t; omega)
  | succ N ih =>
    intro t hsz hw p nd hf
    cases t with
    | mk n v cs =>
      rw [wfNames, Bool.and_eq_true] at hw
      cases p with
      | nil =>
        cases hf
        exact nodup_of_nodupStr hw.1
      | cons y q =>
        have hf' : (match findChild cs y with
          | some c => findNode c q
          | none => none) = some nd := hf
        cases hfc : findChild cs y with
        | none =>
          rw [hfc] at hf'
          exact Option.noConfusion hf'
        | some c =>
          rw [hfc] at hf'
          have hcmem := (findChild_mem hfc).1
          exact ih c (by have := sizeOf_child_lt n v hcmem; omega)
            (wfList_mem hw.2 hcmem) q nd hf'

theorem nodupNames_child {n : String} {v : Int} {cs : List Frame}
    (h : NodupNames (Frame.mk n v cs)) {c : Frame} (hc : c ∈ cs) : NodupNames c := by
  have hroot : (cs.map Frame.name).Nodup := h [] _ rfl
  have hfc : findChild cs c.name = some c := findChild_of_mem_nodup hroot hc
  have hfind : findNode (Frame.mk n v cs) [c.name] = some c := by
    show (match findChild cs c.name with
      | some c' => findNode c' []
      | none => none) = some c
    rw [hfc]
    rfl
  exact nodupNames_descend h hfind

theorem names_canonList (cs : List Frame) :
    (canonList cs).map Frame.name = cs.map Frame.name := by
  rw [canonList_eq_map, List.map_map]
  exact List.map_congr_left (fun c _ => canon_name c)

theorem findChild_canon_sorted (cs : List Frame) (hnod : (cs.map Frame.name).Nodup)
    (nm : String) :
    (findChild (sortBy Frame.name (canonList cs)) nm = none ∧ findChild cs nm = none) ∨
    (∃ c, findChild cs nm = some c ∧
      findChild (sortBy Frame.name (canonList cs)) nm = some (canon c)) := by
  cases hfc : findChild cs nm with
  | some c =>
    right
    refine ⟨c, rfl, ?_⟩
    obtain ⟨hcmem, hcname⟩ := findChild_mem hfc
    have hmem' : canon c ∈ sortBy Frame.name (canonList cs) := by
      rw [(sortBy_perm Frame.name (canonList cs)).mem_iff, canonList_eq_map]
      exact List.mem_map_of_mem canon hcmem
    have hnod' : ((sortBy Frame.name (canonList cs)).map Frame.name).Nodup := by
      have hperm := (sortBy_perm Frame.name (canonList cs)).map Frame.name
      rw [names_canonList] at hperm
      exact hperm.nodup_iff.mpr hnod
    have hres := findChild_of_mem_nodup hnod' hmem'
    rwa [canon_name, hcname] at hres
  | none =>
    left
    refine ⟨?_, rfl⟩
    rw [findChild, List.find?_eq_none] at hfc ⊢
    intro c' hc'
    rw [(sortBy_perm Frame.name (canonList cs)).mem_iff, canonList_eq_map] at hc'
    rcases List.mem_map.mp hc' with ⟨c, hcmem, rfl⟩
    rw [canon_name]
    exact hfc c hcmem

theorem renderKids_cons_some (nm : String) (rest : List String) (cs : List Frame)
    (c : Frame) (h : findChild cs nm = some c) (fv childX baseY width fH fS total : Int)
    (depth : Nat) (scheme : String) :
    renderKids (nm :: rest) cs fv childX baseY width fH fS total depth scheme =
      renderFrame c childX baseY (childWidth width c.value fv) fH fS total (depth + 1)
          scheme ++
        renderKids rest cs fv (childX + childWidth width c.value fv) baseY width fH fS
          total depth scheme := by
  simp only [renderKids]
  split
  next c' heq =>
    rw [h] at heq
    injection heq with heq2
    subst heq2
    rfl
  next heq =>
    rw [h] at heq
    exact Option.noConfusion heq

theorem renderKids_cons_none (nm : String) (rest : List String) (cs : List Frame)
    (h : findChild cs nm = none) (fv childX baseY width fH fS total : Int)
    (depth : Nat) (scheme : String) :
    renderKids (nm :: rest) cs fv childX baseY width fH fS total depth scheme =
      renderKids rest cs fv childX baseY width fH fS total depth scheme := by
  simp only [renderKids]
  split
  next c' heq =>
    rw [h] at heq
    exact Option.noConfusion heq
  next heq => rfl

theorem renderKids_congr (ns : List String) (cs cs' : List Frame)
    (h : ∀ nm, (findChild cs' nm = none ∧ findChild cs nm = none) ∨
      ∃ c' c, findChild cs' nm = some c' ∧ findChild cs nm = some c ∧
        c'.value = c.value ∧
        (∀ (x baseY width fH fS total : Int) (depth : Nat) (scheme : String),
          renderFrame c' x baseY width fH fS total depth scheme =
            renderFrame c x baseY width fH fS total depth scheme)) :
    ∀ (fv childX baseY width fH fS total : Int) (depth : Nat) (scheme : String),
      renderKids ns cs' fv childX baseY width fH fS total depth scheme =
        renderKids ns cs fv childX baseY width fH fS total depth scheme := by
  induction ns with
  | nil =>
    intro fv childX baseY width fH fS total depth scheme
    simp only [renderKids]
  | cons nm rest ih =>
    intro fv childX baseY width fH fS total depth scheme
    rcases h nm with ⟨h1, h2⟩ | ⟨c', c, h1, h2, hval, hrend⟩
    · rw [renderKids_cons_none nm rest cs' h1, renderKids_cons_none nm rest cs h2]
      exact ih fv childX baseY width fH fS total depth scheme
    · rw [renderKids_cons_some nm rest cs' c' h1, renderKids_cons_some nm rest cs c h2,
        hval, hrend, ih]

theorem renderFrame_canon (t : Frame) (hn : NodupNames t) :
    ∀ (x baseY width fH fS total : Int) (depth : Nat) (scheme : String),
      renderFrame (canon t) x baseY width fH fS total depth scheme =
        renderFrame t x baseY width fH fS total depth scheme := by
  suffices h : ∀ (N : Nat) (t : Frame), sizeOf t ≤ N → NodupNames t →
      ∀ (x baseY width fH fS total : Int) (depth : Nat) (scheme : String),
        renderFrame (canon t) x baseY width fH fS total depth scheme =
          renderFrame t x baseY width fH fS total depth scheme from
    fun x baseY width fH fS total depth scheme =>
      h (sizeOf t) t le_rfl hn x baseY width fH fS total depth scheme
  intro N
  induction N with
  | zero =>
    intro t h
    exact absurd h (by have := frame_sizeOf_pos t; omega)
  | succ N ih =>
    intro t hsz hnod x baseY width fH fS total depth scheme
    cases t with
    | mk n v cs =>
      rw [canon_mk]
      have hroot : (cs.map Frame.name).Nodup := hnod [] _ rfl
      have hns : sortBy id ((sortBy Frame.name (canonList cs)).map Frame.name) =
          sortBy id (cs.map Frame.name) := by
        rw [map_key_sortBy Frame.name (canonList cs), names_canonList, sortBy_idem]
      have hkids : ∀ nm,
          (findChild (sortBy Frame.name (canonList cs)) nm = none ∧
            findChild cs nm = none) ∨
          ∃ c' c, findChild (sortBy Frame.name (canonList cs)) nm = some c' ∧
            findChild cs nm = some c ∧ c'.value = c.value ∧
            (∀ (x' baseY' width' fH' fS' total' : Int) (depth' : Nat) (scheme' : String),
              renderFrame c' x' baseY' width' fH' fS' total' depth' scheme' =
                renderFrame c x' baseY' width' fH' fS' total' depth' scheme') := by
        intro nm
        rcases findChild_canon_sorted cs hroot nm with ⟨h1, h2⟩ | ⟨c, hc, hc'⟩
        · exact Or.inl ⟨h1, h2⟩
        · refine Or.inr ⟨canon c, c, hc', hc, canon_value c, ?_⟩
          intro x' baseY' width' fH' fS' total' depth' scheme'
          have hcmem := (findChild_mem hc).1
          exact ih c (by have := sizeOf_child_lt n v hcmem; omega)
            (nodupNames_child hnod hcmem) x' baseY' width' fH' fS' total' depth' scheme'
      simp only [renderFrame]
      rw [hns, renderKids_congr (sortBy id (List.map Frame.name cs)) cs
        (sortBy Frame.name (canonList cs)) hkids]

theorem svgOutput_canon {t1 t2 : Frame} (h1 : NodupNames t1) (h2 : NodupNames t2)
    (hc : canon t1 = canon t2) (total : Int) (opts : SVGOptions) :
    svgOutput t1 total opts = svgOutput t2 total opts := by
  have hrend : ∀ (x baseY width fH fS tot : Int) (depth : Nat) (scheme : String),
      renderFrame t1 x baseY width fH fS tot depth scheme =
        renderFrame t2 x baseY width fH fS tot depth scheme := by
    intro x baseY width fH fS tot depth scheme
    rw [← renderFrame_canon t1 h1 x baseY width fH fS tot depth scheme, hc,
      renderFrame_canon t2 h2 x baseY width fH fS tot depth scheme]
  have hgmd : getMaxDepth t1 0 = getMaxDepth t2 0 := by
    rw [← getMaxDepth_canon t1 0, hc, getMaxDepth_canon t2 0]
  simp only [svgOutput, svgOutputAt, effHeight]
  rw [hgmd, hrend]

/-! Integer-division arithmetic for the width budget of renderKids. -/

theorem ediv_add_ediv_le (a b c : Int) (hc : 0 < c) : a / c + b / c ≤ (a + b) / c := by
  rw [Int.le_ediv_iff_mul_le hc, add_mul]
  exact add_le_add (Int.ediv_mul_le a (by omega)) (Int.ediv_mul_le b (by omega))

theorem sum_map_ediv_le (width fv : Int) (hfv : 0 < fv) (cvs : List Int) :
    (cvs.map (fun cv => (width * cv) / fv)).sum ≤ (width * cvs.sum) / fv := by
  induction cvs with
  | nil => simp
  | cons cv cvs ih =>
    rw [List.map_cons, List.sum_cons, List.sum_cons, mul_add]
    calc (width * cv) / fv + (cvs.map (fun cv => (width * cv) / fv)).sum
        ≤ (width * cv) / fv + (width * cvs.sum) / fv := by omega
      _ ≤ (width * cv + width * cvs.sum) / fv := ediv_add_ediv_le _ _ _ hfv

theorem childWidth_eq_ediv (width cv fv : Int) (hw : 0 ≤ width) (hcv : 0 ≤ cv)
    (hfv : 0 < fv) (h1 : 1 ≤ Int.tdiv (width * cv) fv) :
    childWidth width cv fv = (width * cv) / fv := by
  show (if Int.tdiv (width * cv) fv < 1 then 1 else Int.tdiv (width * cv) fv) = _
  rw [if_neg (by omega)]
  exact Int.tdiv_eq_ediv (mul_nonneg hw hcv) (le_of_lt hfv)

/-! End-of-input behaviour of the two collapsers. -/

theorem linesOfBlocks_append (bs : List (List String)) (b : List String) :
    linesOfBlocks (bs ++ [b]) = linesOfBlocks bs ++ (b ++ [""]) := by
  induction bs with
  | nil => simp [linesOfBlocks]
  | cons x xs ih =>
    rw [List.cons_append, linesOfBlocks, linesOfBlocks, ih]
    simp

theorem collapsePerf_trailing_block (bs : List (List String)) (b : List String)
    (hb : ∀ x ∈ bs, ∀ l ∈ x, goTrim l ≠ "") (hbl : ∀ l ∈ b, goTrim l ≠ "") :
    collapsePerf (linesOfBlocks bs ++ b) = collapsePerf (linesOfBlocks (bs ++ [b])) := by
  rw [collapsePerf, collapsePerf, linesOfBlocks_append, List.foldl_append, List.foldl_append,
    collapsePerf_blocks_fold bs hb, foldl_perfStep_block b hbl, List.foldl_append,
    foldl_perfStep_block b hbl]
  simp only [List.foldl_cons, List.foldl_nil, List.nil_append]
  have hstep : perfStep ⟨(((bs.filterMap blockKey).map (fun k => (k, 1))).foldl
      (fun m' w => bumpStack m' w.1 w.2) []), blockFrames b⟩ "" =
      flushPerf ⟨(((bs.filterMap blockKey).map (fun k => (k, 1))).foldl
        (fun m' w => bumpStack m' w.1 w.2) []), blockFrames b⟩ := rfl
  rw [hstep, flushPerf_flushPerf]

theorem collapseDtrace_trailing_frames (rs : List (List String × String)) (fl : List String)
    (hr : ∀ r ∈ rs, (∀ l ∈ r.1, goTrim l ≠ "" ∧ isCountLine (goTrim l) = false) ∧
      (goTrim r.2 = "" ∨ isCountLine (goTrim r.2) = true))
    (hfl : ∀ l ∈ fl, goTrim l ≠ "" ∧ isCountLine (goTrim l) = false) :
    collapseDtrace (linesOfDtraceRecs rs ++ fl) = collapseDtrace (linesOfDtraceRecs rs) := by
  rw [collapseDtrace, collapseDtrace, List.foldl_append, collapseDtrace_recs_fold rs hr,
    foldl_dtraceStep_frames fl hfl]

/-! The line parser of GenerateSVG. -/

theorem breakSpace_eq_none (cs : List Char) :
    ∀ acc, (breakSpace cs acc = none ↔ ∀ c ∈ cs, c ≠ ' ') := by
  induction cs with
  | nil => intro acc; simp [breakSpace]
  | cons c cs ih =>
    intro acc
    rw [breakSpace]
    by_cases hc : c = ' '
    · rw [if_pos hc]
      simp [hc]
    · rw [if_neg hc, ih (c :: acc)]
      constructor
      · intro h x hx
        rcases List.mem_cons.mp hx with hx' | hx'
        · rw [hx']; exact hc
        · exact h x hx'
      · intro h x hx
        exact h x (List.mem_cons_of_mem c hx)

/-! The ten claims about the flame-graph pipeline. -/

/-- Claim C1 (amended).  Conservation invariant of the tree GenerateSVG
builds: the root's value is the total of all record counts, and every
node's value is the sum of its children's values PLUS the total count of
the records that end exactly at that node.  (The claim's unqualified
equality for non-leaf nodes fails when a record ends at an internal node;
see the counterexample.) -/
theorem C1_tree_conservation :
    (∀ lines : List String, (buildRoot lines).value = totalSamplesOf lines) ∧
    (∀ (lines : List String) (p : List String) (nd : Frame),
      findNode (buildRoot lines) p = some nd →
      nd.value = childrenValueSum nd + endWeight (parsedRecords lines) p) :=
  ⟨buildRoot_value, fun lines p nd h => buildRoot_node_decomp lines p nd h⟩

/-- Claim C1, witness: on the input "a 1" / "a;b 1" the root carries the
total 2 and the node at path [a] satisfies the amended decomposition
2 = 1 + 1. -/
theorem C1_tree_conservation_witness :
    (buildRoot ["a 1", "a;b 1"]).value = totalSamplesOf ["a 1", "a;b 1"] ∧
    (Frame.mk "a" 2 [Frame.mk "b" 1 []]).value =
      childrenValueSum (Frame.mk "a" 2 [Frame.mk "b" 1 []]) +
        endWeight (parsedRecords ["a 1", "a;b 1"]) ["a"] :=
  ⟨C1_tree_conservation.1 ["a 1", "a;b 1"],
   C1_tree_conservation.2 ["a 1", "a;b 1"] ["a"] (Frame.mk "a" 2 [Frame.mk "b" 1 []]) rfl⟩

/-- Claim C1, counterexample to the literal statement: in the tree built
from "a 1" / "a;b 1" the node at path [a] is a non-leaf of value 2 whose
single child has value 1, so a non-leaf node's value can exceed the sum of
its children's values. -/
theorem C1_counterexample :
    ¬ ∀ (lines : List String) (p : List String) (nd : Frame),
        findNode (buildRoot lines) p = some nd → nd.children ≠ [] →
        nd.value = childrenValueSum nd := by
  intro hall
  have h := hall ["a 1", "a;b 1"] ["a"] (Frame.mk "a" 2 [Frame.mk "b" 1 []]) rfl (by simp [Frame.children])
  simp [childrenValueSum, Frame.value, Frame.children] at h

/-- Claim C2 (amended).  Width budget of the child loop: when no child hits
the 1-pixel clamp, the child rectangle widths sum to at most the parent's
width; and two children of equal value splitting an even width incur no
flooring loss at all.  (With the clamp the sum can exceed the parent width;
see the counterexample.) -/
theorem C2_child_width_budget :
    (∀ (width fv : Int) (cvs : List Int), 0 < fv → 0 ≤ width →
      (∀ cv ∈ cvs, 0 ≤ cv) → cvs.sum ≤ fv →
      (∀ cv ∈ cvs, 1 ≤ Int.tdiv (width * cv) fv) →
      (cvs.map (fun cv => childWidth width cv fv)).sum ≤ width) ∧
    (∀ v w : Int, 0 < v → 1 ≤ w →
      childWidth (2 * w) v (2 * v) + childWidth (2 * w) v (2 * v) = 2 * w) := by
  constructor
  · intro width fv cvs hfv hw hnn hsum hcl
    have hmap : cvs.map (fun cv => childWidth width cv fv) =
        cvs.map (fun cv => (width * cv) / fv) :=
      List.map_congr_left
        (fun cv hcv => childWidth_eq_ediv width cv fv hw (hnn cv hcv) hfv (hcl cv hcv))
    rw [hmap]
    calc (cvs.map (fun cv => (width * cv) / fv)).sum
        ≤ (width * cvs.sum) / fv := sum_map_ediv_le width fv hfv cvs
      _ ≤ (width * fv) / fv := Int.ediv_le_ediv hfv (mul_le_mul_of_nonneg_left hsum hw)
      _ = width := Int.mul_ediv_cancel width (by omega)
  · intro v w hv hw
    have h2v : 2 * v ≠ 0 := by omega
    have ht : Int.tdiv (2 * w * v) (2 * v) = w := by
      rw [show 2 * w * v = w * (2 * v) from by ring, Int.mul_tdiv_cancel w h2v]
    show (if Int.tdiv (2 * w * v) (2 * v) < 1 then 1 else Int.tdiv (2 * w * v) (2 * v)) +
        (if Int.tdiv (2 * w * v) (2 * v) < 1 then 1 else Int.tdiv (2 * w * v) (2 * v)) = 2 * w
    rw [ht, if_neg (by omega)]
    ring

/-- Claim C2, witness: two equal children splitting width 10 of a parent of
value 2 get 5 each, and the even split 6 = 3 + 3 is exact. -/
theorem C2_child_width_budget_witness :
    (([1, 1] : List Int).map (fun cv => childWidth 10 cv 2)).sum ≤ 10 ∧
    childWidth (2 * 3) 1 (2 * 1) + childWidth (2 * 3) 1 (2 * 1) = 2 * 3 :=
  ⟨C2_child_width_budget.1 10 2 [1, 1] (by decide) (by decide) (by decide) (by decide)
    (by decide),
   C2_child_width_budget.2 1 3 (by decide) (by decide)⟩

/-- Claim C2, counterexample to the literal statement: three children of
value 1 under a parent of value 3 and width 2 are each clamped from floor
width 0 up to 1 pixel, so their widths sum to 3 > 2. -/
theorem C2_counterexample :
    ¬ ∀ (width fv : Int) (cvs : List Int), 0 < fv → 0 ≤ width →
        (∀ cv ∈ cvs, 0 ≤ cv) → cvs.sum ≤ fv →
        (cvs.map (fun cv => childWidth width cv fv)).sum ≤ width := by
  intro hall
  exact absurd (hall 2 3 [1, 1, 1] (by decide) (by decide) (by decide) (by decide))
    (by decide)

/-- Claim C3 (amended).  CollapsePerf does count a final record block that
the input stream ends without a trailing blank line after — appending the
missing delimiter changes nothing.  CollapseDtrace has no end-of-input
flush: trailing frame lines never followed by a blank or count line are
dropped, so its output is that of the terminated records alone (see the
counterexample to the literal statement). -/
theorem C3_trailing_record :
    (∀ (bs : List (List String)) (b : List String),
      (∀ x ∈ bs, ∀ l ∈ x, goTrim l ≠ "") → (∀ l ∈ b, goTrim l ≠ "") →
      collapsePerf (linesOfBlocks bs ++ b) = collapsePerf (linesOfBlocks (bs ++ [b]))) ∧
    (∀ (rs : List (List String × String)) (fl : List String),
      (∀ r ∈ rs, (∀ l ∈ r.1, goTrim l ≠ "" ∧ isCountLine (goTrim l) = false) ∧
        (goTrim r.2 = "" ∨ isCountLine (goTrim r.2) = true)) →
      (∀ l ∈ fl, goTrim l ≠ "" ∧ isCountLine (goTrim l) = false) →
      collapseDtrace (linesOfDtraceRecs rs ++ fl) = collapseDtrace (linesOfDtraceRecs rs)) :=
  ⟨collapsePerf_trailing_block, collapseDtrace_trailing_frames⟩

/-- Claim C3, witness: a perf input whose last block lacks the trailing
blank line folds as if it were terminated, and a dtrace input with trailing
unterminated frame lines folds to its terminated records alone. -/
theorem C3_trailing_record_witness :
    collapsePerf (linesOfBlocks [["\t 0 funcA+0x1 (m)"]] ++ ["\t 0 funcB+0x1 (m)"]) =
      collapsePerf (linesOfBlocks ([["\t 0 funcA+0x1 (m)"]] ++ [["\t 0 funcB+0x1 (m)"]])) ∧
    collapseDtrace (linesOfDtraceRecs [(["funcA"], "5")] ++ ["funcB"]) =
      collapseDtrace (linesOfDtraceRecs [(["funcA"], "5")]) :=
  ⟨C3_trailing_record.1 [["\t 0 funcA+0x1 (m)"]] ["\t 0 funcB+0x1 (m)"] (by decide)
    (by decide),
   C3_trailing_record.2 [(["funcA"], "5")] ["funcB"] (by decide) (by decide)⟩

/-- Claim C3, counterexample to the literal statement: the dtrace record
funcA / funcB appears in the folded output when terminated by a blank line,
but an input ending right after its frame lines folds to nothing — the last
record's count does not appear. -/
theorem C3_counterexample :
    collapseDtrace ["funcA", "funcB", ""] = ["funcA;funcB 1"] ∧
    collapseDtrace ["funcA", "funcB"] = [] := by
  constructor
  · decide
  · decide

/-- Claim C4.  GenerateSVG fails exactly on a zero total sample count, with
the fixed error message and no output at all (the model's error carries no
document); on any nonzero total it returns the complete SVG document. -/
theorem C4_error_iff_zero_total :
    ∀ (lines : List String) (opts : SVGOptions),
      (totalSamplesOf lines = 0 →
        generateSVG lines opts = Except.error "no samples found in collapsed stacks") ∧
      (totalSamplesOf lines ≠ 0 →
        generateSVG lines opts =
          Except.ok (svgOutput (buildRoot lines) (totalSamplesOf lines) opts)) ∧
      ((∃ e, generateSVG lines opts = Except.error e) ↔ totalSamplesOf lines = 0) := by
  intro lines opts
  by_cases h : totalSamplesOf lines = 0
  · refine ⟨fun _ => by rw [generateSVG, if_pos h], fun hne => absurd h hne, ?_⟩
    exact ⟨fun _ => h,
      fun _ => ⟨"no samples found in collapsed stacks", by rw [generateSVG, if_pos h]⟩⟩
  · refine ⟨fun h0 => absurd h0 h, fun _ => by rw [generateSVG, if_neg h], ?_⟩
    refine ⟨?_, fun h0 => absurd h0 h⟩
    rintro ⟨e, he⟩
    rw [generateSVG, if_neg h] at he
    exact absurd he (by simp)

/-- Claim C4, witness: the empty input errors with the fixed message, and a
single-record input succeeds with the full document. -/
theorem C4_error_iff_zero_total_witness :
    generateSVG [] defaultSVGOptions =
      Except.error "no samples found in collapsed stacks" ∧
    generateSVG ["a;b 2"] defaultSVGOptions =
      Except.ok (svgOutput (buildRoot ["a;b 2"]) (totalSamplesOf ["a;b 2"])
        defaultSVGOptions) :=
  ⟨(C4_error_iff_zero_total [] defaultSVGOptions).1 (by decide),
   (C4_error_iff_zero_total ["a;b 2"] defaultSVGOptions).2.1 (by decide)⟩

/-- Claim C5.  Folding is order-independent for both collapsers — permuting
the record blocks of the raw perf input, or the records of the raw dtrace
input, leaves the folded output unchanged — and every folded output of
either collapser lists one "key count" line per key, sorted
lexicographically by key. -/
theorem C5_order_independence :
    (∀ (bs bs' : List (List String)), bs.Perm bs' →
      (∀ b ∈ bs, ∀ l ∈ b, goTrim l ≠ "") →
      collapsePerf (linesOfBlocks bs) = collapsePerf (linesOfBlocks bs')) ∧
    (∀ lines : List String, ∃ es : List (String × Nat),
      collapsePerf lines = es.map (fun e => e.1 ++ " " ++ toString e.2) ∧
      (es.map Prod.fst).Pairwise (fun a b => strLe a b = true)) ∧
    (∀ (rs rs' : List (List String × String)), rs.Perm rs' →
      (∀ r ∈ rs, (∀ l ∈ r.1, goTrim l ≠ "" ∧ isCountLine (goTrim l) = false) ∧
        (goTrim r.2 = "" ∨ isCountLine (goTrim r.2) = true)) →
      collapseDtrace (linesOfDtraceRecs rs) = collapseDtrace (linesOfDtraceRecs rs')) ∧
    (∀ lines : List String, ∃ es : List (String × Nat),
      collapseDtrace lines = es.map (fun e => e.1 ++ " " ++ toString e.2) ∧
      (es.map Prod.fst).Pairwise (fun a b => strLe a b = true)) := by
  refine ⟨?_, ?_, ?_, ?_⟩
  · intro bs bs' hp hb
    have hb' : ∀ b ∈ bs', ∀ l ∈ b, goTrim l ≠ "" :=
      fun b hbmem => hb b (hp.mem_iff.mpr hbmem)
    rw [collapsePerf_blocks bs hb, collapsePerf_blocks bs' hb']
    exact writeCollapsed_aggregate_perm ((hp.filterMap blockKey).map _)
  · intro lines
    exact ⟨sortedEntries _, rfl, writeCollapsed_sorted_keys _⟩
  · intro rs rs' hp hr
    have hr' : ∀ r ∈ rs', (∀ l ∈ r.1, goTrim l ≠ "" ∧ isCountLine (goTrim l) = false) ∧
        (goTrim r.2 = "" ∨ isCountLine (goTrim r.2) = true) :=
      fun r hrmem => hr r (hp.mem_iff.mpr hrmem)
    rw [collapseDtrace_recs rs hr, collapseDtrace_recs rs' hr']
    exact writeCollapsed_aggregate_perm (hp.filterMap dtraceKeyWeight)
  · intro lines
    exact ⟨sortedEntries _, rfl, writeCollapsed_sorted_keys _⟩

/-- Claim C5, witness: swapping two one-line perf record blocks, or two
dtrace records, leaves the folded output unchanged, and the folded output
of a concrete input of either collapser is a sorted list of "key count"
lines. -/
theorem C5_order_independence_witness :
    collapsePerf (linesOfBlocks [["\t 0 a+1 (m)"], ["\t 0 b+1 (m)"]]) =
      collapsePerf (linesOfBlocks [["\t 0 b+1 (m)"], ["\t 0 a+1 (m)"]]) ∧
    (∃ es : List (String × Nat),
      collapsePerf ["\t 0 a+1 (m)", ""] = es.map (fun e => e.1 ++ " " ++ toString e.2) ∧
      (es.map Prod.fst).Pairwise (fun a b => strLe a b = true)) ∧
    collapseDtrace (linesOfDtraceRecs [(["a"], "2"), (["b"], "3")]) =
      collapseDtrace (linesOfDtraceRecs [(["b"], "3"), (["a"], "2")]) ∧
    (∃ es : List (String × Nat),
      collapseDtrace ["a", "5"] = es.map (fun e => e.1 ++ " " ++ toString e.2) ∧
      (es.map Prod.fst).Pairwise (fun a b => strLe a b = true)) :=
  ⟨C5_order_independence.1 _ _ (List.Perm.swap _ _ _) (by decide),
   C5_order_independence.2.1 ["\t 0 a+1 (m)", ""],
   C5_order_independence.2.2.1 _ _ (List.Perm.swap _ _ _) (by decide),
   C5_order_independence.2.2.2 ["a", "5"]⟩

/-- Claim C6.  Round trip on the concrete perf input of the spec: the
three-frame leaf-first block repeated three times folds to the single
root-first record funcA;funcB;funcC with count 3. -/
theorem C6_round_trip :
    collapsePerf ["\t 0 funcC+0x10 (mod)", "\t 0 funcB+0x4 (mod)", "\t 0 funcA+0x0 (mod)", "",
      "\t 0 funcC+0x10 (mod)", "\t 0 funcB+0x4 (mod)", "\t 0 funcA+0x0 (mod)", "",
      "\t 0 funcC+0x10 (mod)", "\t 0 funcB+0x4 (mod)", "\t 0 funcA+0x0 (mod)", ""] =
      ["funcA;funcB;funcC 3"] := by
  decide

/-- Claim C7.  Rendering is deterministic: the SVG document is a pure
function of the map content of the tree — two trees holding the same
children in any storage order (equal canonical forms) render byte-for-byte
identically, for every total and every option value. -/
theorem C7_deterministic_rendering :
    ∀ (t1 t2 : Frame) (total : Int) (opts : SVGOptions),
      NodupNames t1 → NodupNames t2 → canon t1 = canon t2 →
      svgOutput t1 total opts = svgOutput t2 total opts :=
  fun _ _ total opts h1 h2 hc => svgOutput_canon h1 h2 hc total opts

/-- Claim C7, witness: the same two children stored in either order render
to the same document. -/
theorem C7_deterministic_rendering_witness :
    svgOutput (Frame.mk "root" 3 [Frame.mk "b" 1 [], Frame.mk "a" 2 []]) 3
        defaultSVGOptions =
      svgOutput (Frame.mk "root" 3 [Frame.mk "a" 2 [], Frame.mk "b" 1 []]) 3
        defaultSVGOptions :=
  C7_deterministic_rendering _ _ 3 defaultSVGOptions
    (nodupNames_of_wfNames _ (by simp [wfNames, wfList, nodupStr, Frame.name]))
    (nodupNames_of_wfNames _ (by simp [wfNames, wfList, nodupStr, Frame.name]))
    (by simp only [canon, canonList]; rfl)

/-- Claim C8.  The image height: a zero Height option is replaced by
(maxDepth + 2) * 16 + 40 + 20 computed from the tree's maximum depth, and a
nonzero Height is used unchanged. -/
theorem C8_height_formula :
    ∀ (t : Frame) (total : Int) (opts : SVGOptions),
      (opts.Height = 0 →
        svgOutput t total opts =
          svgOutputAt t total (if opts.Width = 0 then 1200 else opts.Width)
            (((getMaxDepth t 0 : Int) + 2) * 16 + 40 + 20) opts.Title opts.ColorScheme) ∧
      (opts.Height ≠ 0 →
        svgOutput t total opts =
          svgOutputAt t total (if opts.Width = 0 then 1200 else opts.Width)
            opts.Height opts.Title opts.ColorScheme) := by
  intro t total opts
  constructor
  · intro h
    show svgOutputAt t total (if opts.Width = 0 then 1200 else opts.Width)
      (effHeight t opts.Height) opts.Title opts.ColorScheme = _
    rw [effHeight, if_pos h]
  · intro h
    show svgOutputAt t total (if opts.Width = 0 then 1200 else opts.Width)
      (effHeight t opts.Height) opts.Title opts.ColorScheme = _
    rw [effHeight, if_neg h]

/-- Claim C8, witness: the default options (Height 0) put a single-node
tree through the depth formula, and an explicit height of 300 is used
unchanged. -/
theorem C8_height_formula_witness :
    svgOutput (Frame.mk "root" 1 []) 1 defaultSVGOptions =
      svgOutputAt (Frame.mk "root" 1 []) 1
        (if defaultSVGOptions.Width = 0 then 1200 else defaultSVGOptions.Width)
        (((getMaxDepth (Frame.mk "root" 1 []) 0 : Int) + 2) * 16 + 40 + 20)
        defaultSVGOptions.Title defaultSVGOptions.ColorScheme ∧
    svgOutput (Frame.mk "root" 1 []) 1 ⟨"t", 800, 300, "cold"⟩ =
      svgOutputAt (Frame.mk "root" 1 []) 1
        (if (⟨"t", 800, 300, "cold"⟩ : SVGOptions).Width = 0 then 1200
         else (⟨"t", 800, 300, "cold"⟩ : SVGOptions).Width)
        (⟨"t", 800, 300, "cold"⟩ : SVGOptions).Height
        (⟨"t", 800, 300, "cold"⟩ : SVGOptions).Title
        (⟨"t", 800, 300, "cold"⟩ : SVGOptions).ColorScheme :=
  ⟨(C8_height_formula (Frame.mk "root" 1 []) 1 defaultSVGOptions).1 rfl,
   (C8_height_formula (Frame.mk "root" 1 []) 1 ⟨"t", 800, 300, "cold"⟩).2 (by decide)⟩

/-- Claim C9.  The input boundary of GenerateSVG: a line with no space is
skipped (parses to none), every line that does parse carries a nonzero
count, and a count field that scans to 0 — including every non-numeric
field — is replaced by 1. -/
theorem C9_line_tolerance :
    ∀ (line : String),
      (parseLine line = none ↔ ∀ c ∈ line.data, c ≠ ' ') ∧
      (∀ key cnt, parseLine line = some (key, cnt) → cnt ≠ 0) ∧
      (∀ key rest, splitN2Space line = some (key, rest) → scanInt rest = 0 →
        parseLine line = some (key, 1)) := by
  intro line
  refine ⟨⟨?_, ?_⟩, ?_, ?_⟩
  · intro hn
    rw [parseLine] at hn
    cases h : splitN2Space line with
    | none => exact (breakSpace_eq_none line.data []).mp h
    | some sc => rw [h] at hn; simp at hn
  · intro hns
    have h : splitN2Space line = none := (breakSpace_eq_none line.data []).mpr hns
    rw [parseLine, h]
  · intro key cnt h
    rw [parseLine] at h
    cases hs : splitN2Space line with
    | none => rw [hs] at h; simp at h
    | some sc =>
      rw [hs] at h
      have h2 : some (sc.1, if scanInt sc.2 = 0 then 1 else scanInt sc.2) =
          some (key, cnt) := h
      have h3 := Option.some.inj h2
      have hc : cnt = if scanInt sc.2 = 0 then 1 else scanInt sc.2 :=
        (congrArg Prod.snd h3).symm
      rw [hc]
      split_ifs with h0
      · omega
      · exact h0
  · intro key rest hs h0
    rw [parseLine, hs]
    show some (key, if scanInt rest = 0 then 1 else scanInt rest) = some (key, 1)
    rw [if_pos h0]

/-- Claim C9, witness: a spaceless line is skipped, the count 5 that a
parsing line carries is nonzero, and a non-numeric count field parses to
count 1. -/
theorem C9_line_tolerance_witness :
    parseLine "abc" = none ∧ ((5 : Int) ≠ 0) ∧
    parseLine "a;b xyz" = some ("a;b", 1) :=
  ⟨(C9_line_tolerance "abc").1.mpr (by decide),
   (C9_line_tolerance "a 5").2.1 "a" 5 rfl,
   (C9_line_tolerance "a;b xyz").2.2 "a;b" "xyz" rfl (by decide)⟩

/-- Claim C10.  Every color frameColor emits is a valid RGB triple: for
every depth and every scheme string — unrecognized ones fall through to the
hot palette — each component lies within 0..255. -/
theorem C10_valid_rgb :
    ∀ (depth : Nat) (scheme : String), ∃ r g b : Nat,
      frameColor depth scheme = (r, g, b) ∧ r ≤ 255 ∧ g ≤ 255 ∧ b ≤ 255 := by
  intro depth scheme
  have h55 : (depth * 15) % 55 < 55 := Nat.mod_lt _ (by omega)
  have h150 : (depth * 40) % 150 < 150 := Nat.mod_lt _ (by omega)
  have h150b : (depth * 30) % 150 < 150 := Nat.mod_lt _ (by omega)
  have h100 : (depth * 20) % 100 < 100 := Nat.mod_lt _ (by omega)
  have h60 : (depth * 15) % 60 < 60 := Nat.mod_lt _ (by omega)
  rw [frameColor]
  split_ifs
  · exact ⟨30, 50 + (depth * 30) % 150, 150 + (depth * 20) % 100, rfl, by omega, by omega,
      by omega⟩
  · exact ⟨30, 190 + (depth * 15) % 60, 30, rfl, by omega, by omega, by omega⟩
  · exact ⟨200 + (depth * 15) % 55, 50 + (depth * 40) % 150, 30, rfl, by omega, by omega,
      by omega⟩

end Umd
